import Mathlib

/-!
Verification of the petra-obsidian-cli vault cache subsystem and link-graph
traversal, as a shallow embedding of the TypeScript source.

Conventions of the embedding:
* JS strings are Lean `String`s; the regex passes of the source are
  translated into explicit left-to-right scanners over `String.data`
  (`List Char`).  Each scanner carries a structural fuel argument that is
  instantiated with the length of the scanned list; every scanning step
  consumes at least one character, so the fuel never runs out on the real
  entry points (the fuel-zero fallback mirrors the value the source would
  produce for already-exhausted input).
* The SQLite database of the cache package is modelled as lists of rows in
  rowid (insertion) order; SQL statements become list operations.
* External collaborators (gray-matter frontmatter parsing, the FTS5 search
  engine, the filesystem, the Obsidian vault API, wall-clock time) are
  modelled at their interface, per the specification: files on disk carry
  their parse result directly, FTS match is a prefix-token matcher, and
  `Date.now() - startTime` is taken to be `0` (a query is instantaneous in
  the model, so wall-clock timeouts never fire).
-/

namespace Petra

/-! ## JS string primitives -/

/-- JS whitespace characters relevant to `trim()` and `\s` (ASCII fragment). -/
def isWsChar (c : Char) : Bool :=
  c = ' ' || c = '\t' || c = '\n' || c = '\r' || c = '\x0b' || c = '\x0c'

/-- `String.prototype.trim()`: strip whitespace from both ends. -/
def jsTrim (s : String) : String :=
  ⟨((s.data.dropWhile isWsChar).reverse.dropWhile isWsChar).reverse⟩

/-- `String.prototype.endsWith(suffix)`. -/
def jsEndsWith (s suffix : String) : Bool :=
  suffix.data.isSuffixOf s.data

/-- `String.prototype.startsWith(p)`. -/
def jsStartsWith (s p : String) : Bool :=
  p.data.isPrefixOf s.data

/-- `str.replace(reMdSuffix, "")` where the pattern matches a final ".md":
drop the last three characters when the string ends with ".md". -/
def stripMdSuffix (s : String) : String :=
  if jsEndsWith s ".md" then ⟨s.data.dropLast.dropLast.dropLast⟩ else s

/-- `String.prototype.split(sep)` for a one-character separator. -/
def splitCharAux (sep : Char) (cur : List Char) : List Char → List (List Char)
  | [] => [cur.reverse]
  | c :: rest =>
    if c = sep then cur.reverse :: splitCharAux sep [] rest
    else splitCharAux sep (c :: cur) rest

/-- `s.split(sep)` (always returns at least one piece, like JS). -/
def splitChar (sep : Char) (s : String) : List String :=
  (splitCharAux sep [] s.data).map (fun l => ⟨l⟩)

/-- `s.split("/").pop()`: the last piece of a slash-split. -/
def lastPiece (s : String) : String :=
  (splitChar '/' s).getLast?.getD ""

/-- Lower-case an ASCII character (model of SQLite's ASCII-only case folding). -/
def lowerChar (c : Char) : Char :=
  if 'A' ≤ c && c ≤ 'Z' then Char.ofNat (c.toNat + 32) else c

/-- ASCII-lower-case a string. -/
def lowerAscii (s : String) : String := ⟨s.data.map lowerChar⟩

/-- Does `needle` occur as a contiguous run inside `l`? -/
def containsRun (needle : List Char) : List Char → Bool
  | [] => needle.isEmpty
  | c :: rest => needle.isPrefixOf (c :: rest) || containsRun needle rest

/-- `haystack.includes(needle)` on raw characters. -/
def containsSub (haystack needle : String) : Bool :=
  containsRun needle.data haystack.data

/-- Code-unit comparison of JS strings: `a < b` (lexicographic on char codes). -/
def jsLtChars : List Char → List Char → Bool
  | [], [] => false
  | [], _ :: _ => true
  | _ :: _, [] => false
  | a :: as, b :: bs =>
    if a.toNat < b.toNat then true
    else if b.toNat < a.toNat then false
    else jsLtChars as bs

/-- `a <= b` in JS string comparison order (the default `Array.sort` order). -/
def jsLeStr (a b : String) : Bool := !(jsLtChars b.data a.data)

/-- Stable insertion into a `le`-sorted list. -/
def insertLe {α : Type} (le : α → α → Bool) (x : α) : List α → List α
  | [] => [x]
  | y :: ys => if le x y then x :: y :: ys else y :: insertLe le x ys

/-- Stable insertion sort: models both `Array.prototype.sort()` (with the
default code-unit comparator `jsLeStr`) and SQL ORDER BY. -/
def sortWith {α : Type} (le : α → α → Bool) : List α → List α
  | [] => []
  | x :: xs => insertLe le x (sortWith le xs)

/-- JS `Set` insertion-order de-duplication (`Array.from(new Set(l))`). -/
def dedupFirstAux (seen : List String) : List String → List String
  | [] => []
  | x :: xs =>
    if seen.contains x then dedupFirstAux seen xs
    else x :: dedupFirstAux (x :: seen) xs

/-- De-duplicate keeping first occurrences, like iterating a JS `Set`. -/
def dedupFirst (l : List String) : List String := dedupFirstAux [] l

/-! ## packages/cache/src/links.ts — link extraction -/

inductive LinkType where
  | wiki
  | markdown
deriving DecidableEq, Repr

structure ExtractedLink where
  target : String
  type : LinkType
deriving DecidableEq, Repr

/-- One pass of the global wiki-link regex `[[target]]` or `[[target|alias]]`
(`target` is one or more characters other than `]` and `|`, the optional alias
one or more characters other than `]`).  Returns the raw captured targets in
match order.  On a failed match the regex engine advances one position. -/
def wikiScanAux : Nat → List Char → List (List Char)
  | 0, _ => []
  | _ + 1, [] => []
  | fuel + 1, '[' :: '[' :: rest =>
    let tgt := rest.takeWhile (fun c => c != ']' && c != '|')
    if tgt.isEmpty then wikiScanAux fuel ('[' :: rest)
    else
      match rest.dropWhile (fun c => c != ']' && c != '|') with
      | ']' :: ']' :: r => tgt :: wikiScanAux fuel r
      | '|' :: r2 =>
        let alias_ := r2.takeWhile (fun c => c != ']')
        if alias_.isEmpty then wikiScanAux fuel ('[' :: rest)
        else
          match r2.dropWhile (fun c => c != ']') with
          | ']' :: ']' :: r3 => tgt :: wikiScanAux fuel r3
          | _ => wikiScanAux fuel ('[' :: rest)
      | _ => wikiScanAux fuel ('[' :: rest)
  | fuel + 1, _ :: rest => wikiScanAux fuel rest

/-- All raw wiki-link targets of a content string. -/
def wikiScan (s : String) : List (List Char) :=
  wikiScanAux s.data.length s.data

/-- One pass of the global markdown-link regex `[alias](href)` (`alias` one or
more non-`]` characters, `href` one or more non-`)` characters).  Returns the
raw hrefs in match order. -/
def mdScanAux : Nat → List Char → List (List Char)
  | 0, _ => []
  | _ + 1, [] => []
  | fuel + 1, '[' :: rest =>
    let alias_ := rest.takeWhile (fun c => c != ']')
    if alias_.isEmpty then mdScanAux fuel rest
    else
      match rest.dropWhile (fun c => c != ']') with
      | ']' :: '(' :: r2 =>
        let href := r2.takeWhile (fun c => c != ')')
        if href.isEmpty then mdScanAux fuel rest
        else
          match r2.dropWhile (fun c => c != ')') with
          | ')' :: r3 => href :: mdScanAux fuel r3
          | _ => mdScanAux fuel rest
      | _ => mdScanAux fuel rest
  | fuel + 1, _ :: rest => mdScanAux fuel rest

/-- All raw markdown-link hrefs of a content string. -/
def mdScan (s : String) : List (List Char) :=
  mdScanAux s.data.length s.data

/-- Processing of a trimmed markdown href: `href.replace(reMdSuffix, "").split("#")[0]`. -/
def mdTargetOfHref (href : String) : String :=
  ((splitChar '#' (stripMdSuffix href)).headD "")

/-- `extractLinks` of packages/cache/src/links.ts: wiki pass first, then the
markdown pass with external URLs and bare anchors excluded and the `.md`
suffix plus `#fragment` processing applied; de-duplicated by a
`kind:target` key (first occurrence wins). -/
def extractLinks (content : String) : List ExtractedLink :=
  let wikiStep := fun (acc : List ExtractedLink × List String) (raw : List Char) =>
    let target := jsTrim ⟨raw⟩
    let key := "wiki:" ++ target
    if acc.2.contains key then acc
    else (acc.1 ++ [⟨target, .wiki⟩], key :: acc.2)
  let mdStep := fun (acc : List ExtractedLink × List String) (raw : List Char) =>
    let href := jsTrim ⟨raw⟩
    if !(jsStartsWith href "http://") && !(jsStartsWith href "https://")
        && !(jsStartsWith href "#") then
      let target := mdTargetOfHref href
      let key := "md:" ++ target
      if target != "" && !(acc.2.contains key) then
        (acc.1 ++ [⟨target, .markdown⟩], key :: acc.2)
      else acc
    else acc
  let acc1 := (wikiScan content).foldl wikiStep ([], [])
  ((mdScan content).foldl mdStep acc1).1

/-! ## Inline tag extraction (cache links.ts and cli lib/tags.ts) -/

/-- Removal of fenced code blocks: the global lazy regex replacing
triple-backtick blocks by the empty string.  An unclosed opener matches
nothing and the text is left as-is. -/
def rcbAux : Nat → List Char → List Char
  | 0, l => l
  | _ + 1, [] => []
  | fuel + 1, '`' :: '`' :: '`' :: rest =>
    match rcbClose rest.length rest with
    | some r => rcbAux fuel r
    | none => '`' :: '`' :: '`' :: rest
  | fuel + 1, c :: rest => c :: rcbAux fuel rest
where
  /-- Find the closing triple backtick; returns what follows it. -/
  rcbClose : Nat → List Char → Option (List Char)
    | 0, _ => none
    | _ + 1, [] => none
    | _ + 1, '`' :: '`' :: '`' :: rest => some rest
    | fuel + 1, _ :: rest => rcbClose fuel rest

/-- `content.replace(reFenced, "")`. -/
def removeCodeBlocks (s : String) : String := ⟨rcbAux s.data.length s.data⟩

/-- Removal of inline code spans: the global regex replacing
`` `...` `` (backtick, zero or more non-backticks, backtick) by the empty
string.  A backtick with no closing partner matches nothing. -/
def ricAux : Nat → List Char → List Char
  | 0, l => l
  | _ + 1, [] => []
  | fuel + 1, '`' :: rest =>
    match rest.dropWhile (fun c => c != '`') with
    | '`' :: r => ricAux fuel r
    | _ => '`' :: rest
  | fuel + 1, c :: rest => c :: ricAux fuel rest

/-- `content.replace(reInlineCode, "")`. -/
def removeInlineCode (s : String) : String := ⟨ricAux s.data.length s.data⟩

/-- Characters a bare URL run may contain: anything but whitespace and `)`. -/
def isUrlChar (c : Char) : Bool := !(isWsChar c) && c != ')'

/-- Removal of bare URLs: the global regex replacing `http://` or `https://`
followed by one or more URL characters by the empty string. -/
def ruAux : Nat → List Char → List Char
  | 0, l => l
  | _ + 1, [] => []
  | fuel + 1, 'h' :: 't' :: 't' :: 'p' :: rest =>
    match rest with
    | 's' :: ':' :: '/' :: '/' :: r2 =>
      let run := r2.takeWhile isUrlChar
      if run.isEmpty then 'h' :: ruAux fuel ('t' :: 't' :: 'p' :: rest)
      else ruAux fuel (r2.dropWhile isUrlChar)
    | ':' :: '/' :: '/' :: r2 =>
      let run := r2.takeWhile isUrlChar
      if run.isEmpty then 'h' :: ruAux fuel ('t' :: 't' :: 'p' :: rest)
      else ruAux fuel (r2.dropWhile isUrlChar)
    | _ => 'h' :: ruAux fuel ('t' :: 't' :: 'p' :: rest)
  | fuel + 1, c :: rest => c :: ruAux fuel rest

/-- `content.replace(reUrl, "")`. -/
def removeUrls (s : String) : String := ⟨ruAux s.data.length s.data⟩

/-- Tag-token characters of the cache extractor: alphanumerics, underscore,
slash, hyphen. -/
def isTagCharCache (c : Char) : Bool :=
  ('a' ≤ c && c ≤ 'z') || ('A' ≤ c && c ≤ 'Z') || ('0' ≤ c && c ≤ '9')
    || c = '_' || c = '/' || c = '-'

/-- Tag-token characters of the CLI extractor: alphanumerics, underscore,
hyphen (no slash). -/
def isTagCharCli (c : Char) : Bool :=
  ('a' ≤ c && c ≤ 'z') || ('A' ≤ c && c ≤ 'Z') || ('0' ≤ c && c ≤ '9')
    || c = '_' || c = '-'

/-- The global tag regex pass: `#` followed by one or more tag characters;
returns captured tokens in match order. -/
def findTagsAux (isTagChar : Char → Bool) : Nat → List Char → List (List Char)
  | 0, _ => []
  | _ + 1, [] => []
  | fuel + 1, c :: rest =>
    if c = '#' then
      let run := rest.takeWhile isTagChar
      if run.isEmpty then findTagsAux isTagChar fuel rest
      else run :: findTagsAux isTagChar fuel (rest.dropWhile isTagChar)
    else findTagsAux isTagChar fuel rest

/-- All tag tokens of a cleaned content string. -/
def findTags (isTagChar : Char → Bool) (s : String) : List String :=
  (findTagsAux isTagChar s.data.length s.data).map (fun l => ⟨l⟩)

/-- `extractInlineTags` of packages/cache/src/links.ts: strip code blocks,
inline code and URLs, then collect `#tag` tokens into a `Set`. -/
def extractInlineTags (content : String) : List String :=
  dedupFirst (findTags isTagCharCache
    (removeUrls (removeInlineCode (removeCodeBlocks content))))

/-- `extractInlineTags` of packages/cli/src/lib/tags.ts — same pipeline, but
the tag character class has no slash. -/
def cliExtractInlineTags (content : String) : List String :=
  dedupFirst (findTags isTagCharCli
    (removeUrls (removeInlineCode (removeCodeBlocks content))))

/-! ## Frontmatter (packages/shared/src/frontmatter.ts, §6 contract)

gray-matter is an external library; per the spec's frontmatter contract a
file parses to `{data, content}` and `data` is empty on any parse failure.
The embedding represents file content by its parse result directly: a
`Frontmatter` record (the fields the cache reads, post-stringification) and
the body text. -/

structure Frontmatter where
  title : Option String := none
  /-- `tags` when it is an array (elements already stringified); `none`
  models a missing or non-array `tags` field. -/
  tags : Option (List String) := none
  created : Option String := none
  modified : Option String := none
deriving DecidableEq, Repr

/-- `getTagsFromNote` of packages/cli/src/lib/tags.ts: a `Set` seeded with the
frontmatter `tags` array, extended with the inline tags, then sorted. -/
def getTagsFromNote (content : String) (frontmatter : Frontmatter) : List String :=
  sortWith jsLeStr (dedupFirst (frontmatter.tags.getD [] ++ cliExtractInlineTags content))

/-! ## packages/plugin/src/routes/graph.ts — link-graph traversal

The Obsidian vault API is the external collaborator here: a vault is a list
of markdown files, each carrying the `TFile` attributes the route reads
(`path`, `basename`, parent folder path) and its content. -/

structure VFile where
  path : String
  basename : String
  folder : String
  content : String
deriving DecidableEq, Repr

structure GraphNode where
  id : String
  title : String
  group : String
deriving DecidableEq, Repr

structure GraphEdge where
  source : String
  target : String
  type : LinkType
deriving DecidableEq, Repr

structure GraphResult where
  nodes : List GraphNode
  edges : List GraphEdge
  truncated : Bool
  processedNodes : Nat
  totalFiles : Nat
deriving DecidableEq, Repr

inductive Direction where
  | inDir
  | outDir
  | both
deriving DecidableEq, Repr

/-- The request body of POST /graph/query; absent fields are `none`. -/
structure GraphReq where
  fro : Option String := none
  depth : Option Int := none
  direction : Option Direction := none
  maxNodes : Option Int := none
  timeout : Option Int := none

/-- A JS `Map` built by successive `set` calls: later sets shadow earlier
ones, so lookup finds the most recent binding. -/
def mapGet (entries : List (String × VFile)) (k : String) : Option VFile :=
  (entries.reverse.find? (fun e => e.1 = k)).map (·.2)

/-- The `fileMap` of the route: every file registered under its path and its
basename. -/
def buildFileMap (files : List VFile) : List (String × VFile) :=
  files.foldl (fun m f => m ++ [(f.path, f), (f.basename, f)]) []

structure GLink where
  target : String
  type : LinkType
deriving DecidableEq, Repr

/-- The route's local `extractLinks` helper: wiki links (trimmed, not
de-duplicated) then markdown links with only external URLs excluded and only
the `.md` suffix stripped (no anchor handling). -/
def graphExtractLinks (content : String) : List GLink :=
  (wikiScan content).map (fun raw => ⟨jsTrim ⟨raw⟩, .wiki⟩)
    ++ (mdScan content).filterMap (fun raw =>
      let href := jsTrim ⟨raw⟩
      if !(jsStartsWith href "http://") && !(jsStartsWith href "https://") then
        some ⟨stripMdSuffix href, .markdown⟩
      else none)

/-- `Date.now() - startTime`: wall-clock time is not modelled; a query runs
at time zero, so the timeout guard (threshold at least 1000ms) never fires. -/
def elapsedMs : Int := 0

/-- The backlinks inverted index: target path → sources referencing it. -/
def blAdd (idx : List (String × List (VFile × LinkType))) (k : String)
    (v : VFile × LinkType) : List (String × List (VFile × LinkType)) :=
  if (idx.find? (fun e => e.1 = k)).isSome then
    idx.map (fun e => if e.1 = k then (e.1, e.2 ++ [v]) else e)
  else idx ++ [(k, [v])]

/-- Lookup in the backlinks index (`backlinksIndex.get(path) || []`). -/
def blGet (idx : List (String × List (VFile × LinkType))) (k : String) :
    List (VFile × LinkType) :=
  ((idx.find? (fun e => e.1 = k)).map (·.2)).getD []

/-- `buildBacklinksIndex`: scan the first `min(files.length, safeMaxNodes)`
files once, resolving each extracted link target through the file map. -/
def buildBacklinksIndex (files : List VFile) (fileMap : List (String × VFile))
    (direction : Direction) (safeMaxNodes : Int) :
    List (String × List (VFile × LinkType)) :=
  if direction = .inDir || direction = .both then
    (files.take (min files.length safeMaxNodes.toNat)).foldl
      (fun idx file =>
        (graphExtractLinks file.content).foldl
          (fun idx link =>
            match mapGet fileMap link.target <|> mapGet fileMap (link.target ++ ".md") with
            | some targetFile => blAdd idx targetFile.path (file, link.type)
            | none => idx)
          idx)
      []
  else []

/-- Traversal context: the clamped limits, direction and the prebuilt maps. -/
structure GCtx where
  fileMap : List (String × VFile)
  blIndex : List (String × List (VFile × LinkType))
  direction : Direction
  safeDepth : Int
  safeMaxNodes : Int
  safeTimeout : Int

/-- Mutable traversal state of the route handler. -/
structure GState where
  nodes : List GraphNode
  edges : List GraphEdge
  visited : List String
  truncated : Bool
deriving DecidableEq, Repr

/-- `addNode`: refuse (and set `truncated`) at the node cap, otherwise add
the file's node if its id is new.  Returns the state and the JS boolean. -/
def addNode (ctx : GCtx) (file : VFile) (st : GState) : GState × Bool :=
  if (st.nodes.length : Int) ≥ ctx.safeMaxNodes then
    ({ st with truncated := true }, false)
  else
    let id := stripMdSuffix file.path
    if (st.nodes.find? (fun n => n.id = id)).isSome then (st, true)
    else ({ st with nodes := st.nodes ++ [⟨id, file.basename, file.folder⟩] }, true)

/-- The outgoing-links loop body of `traverse`: resolve each link, add node
and de-duplicated edge, recurse; a `false` from any step aborts. -/
def outLoop (ctx : GCtx) (recurse : String → GState → GState × Bool)
    (fileId : String) : List GLink → GState → GState × Bool
  | [], st => (st, true)
  | link :: rest, st =>
    match mapGet ctx.fileMap link.target <|> mapGet ctx.fileMap (link.target ++ ".md") with
    | none => outLoop ctx recurse fileId rest st
    | some targetFile =>
      match addNode ctx targetFile st with
      | (st, false) => (st, false)
      | (st, true) =>
        let targetId := stripMdSuffix targetFile.path
        let st :=
          if st.edges.any (fun e => e.source = fileId && e.target = targetId) then st
          else { st with edges := st.edges ++ [⟨fileId, targetId, link.type⟩] }
        match recurse targetFile.path st with
        | (st, true) => outLoop ctx recurse fileId rest st
        | (st, false) => (st, false)

/-- The incoming-links loop body of `traverse` over the backlinks index. -/
def inLoop (ctx : GCtx) (recurse : String → GState → GState × Bool)
    (filePath fileId : String) : List (VFile × LinkType) → GState → GState × Bool
  | [], st => (st, true)
  | (sourceFile, ty) :: rest, st =>
    if sourceFile.path = filePath then inLoop ctx recurse filePath fileId rest st
    else
      match addNode ctx sourceFile st with
      | (st, false) => (st, false)
      | (st, true) =>
        let sourceId := stripMdSuffix sourceFile.path
        let st :=
          if st.edges.any (fun e => e.source = sourceId && e.target = fileId) then st
          else { st with edges := st.edges ++ [⟨sourceId, fileId, ty⟩] }
        match recurse sourceFile.path st with
        | (st, true) => inLoop ctx recurse filePath fileId rest st
        | (st, false) => (st, false)

/-- `traverse(startPath, currentDepth)`.  The fuel is structural recursion
bookkeeping: the entry point passes `(safeDepth + 1).toNat` and every
recursive call is at `currentDepth + 1`, so fuel reaches `0` only when
`currentDepth > safeDepth`, where the fuel-zero value coincides with the
depth-guard's value. -/
def traverse (ctx : GCtx) : Nat → Int → String → GState → GState × Bool
  | 0, _, _, st => (st, true)
  | fuel + 1, currentDepth, startPath, st =>
    if currentDepth > ctx.safeDepth then (st, true)
    else if elapsedMs > ctx.safeTimeout then ({ st with truncated := true }, false)
    else if st.visited.contains startPath then (st, true)
    else if (st.nodes.length : Int) ≥ ctx.safeMaxNodes then
      ({ st with truncated := true }, false)
    else
      let st := { st with visited := st.visited ++ [startPath] }
      match mapGet ctx.fileMap startPath <|> mapGet ctx.fileMap (startPath ++ ".md") with
      | none => (st, true)
      | some file =>
        match addNode ctx file st with
        | (st, false) => (st, false)
        | (st, true) =>
          let fileId := stripMdSuffix file.path
          let step1 :=
            if ctx.direction = .outDir || ctx.direction = .both then
              outLoop ctx (traverse ctx fuel (currentDepth + 1)) fileId
                (graphExtractLinks file.content) st
            else (st, true)
          match step1 with
          | (st, false) => (st, false)
          | (st, true) =>
            if ctx.direction = .inDir || ctx.direction = .both then
              inLoop ctx (traverse ctx fuel (currentDepth + 1)) file.path fileId
                (blGet ctx.blIndex file.path) st
            else (st, true)

/-- The no-start-node "whole vault" branch: first `min(100, safeMaxNodes)`
files as nodes, edges only to resolved targets, no recursion. -/
def wholeVault (ctx : GCtx) (files : List VFile) (limitForFullGraph : Int)
    (st0 : GState) : GState :=
  let inner := fun (acc : GState × Bool) (file : VFile) =>
    match acc with
    | (st, false) => (st, false)
    | (st, true) =>
      if elapsedMs > ctx.safeTimeout then ({ st with truncated := true }, false)
      else
        match addNode ctx file st with
        | (st, false) => (st, false)
        | (st, true) =>
          let fileId := stripMdSuffix file.path
          let links := graphExtractLinks file.content
          let after := links.foldl
            (fun (acc2 : GState × Bool) link =>
              match acc2 with
              | (st, false) => (st, false)
              | (st, true) =>
                match mapGet ctx.fileMap link.target
                    <|> mapGet ctx.fileMap (link.target ++ ".md") with
                | none => (st, true)
                | some targetFile =>
                  match addNode ctx targetFile st with
                  | (st, false) => ({ st with truncated := true }, false)
                  | (st, true) =>
                    let targetId := stripMdSuffix targetFile.path
                    ({ st with edges := st.edges ++ [⟨fileId, targetId, link.type⟩] },
                      true))
            (st, true)
          match after with
          | (st, false) => (st, false)
          | (st, true) => if st.truncated then (st, false) else (st, true)
  ((files.take limitForFullGraph.toNat).foldl inner (st0, true)).1

/-- The clamped depth: `Math.min(Math.max(0, depth), MAX_DEPTH)`. -/
def safeDepthOf (depth : Int) : Int := min (max 0 depth) 50

/-- The clamped node budget: `Math.min(Math.max(1, maxNodes), MAX_NODES)`. -/
def safeMaxNodesOf (maxNodes : Int) : Int := min (max 1 maxNodes) 10000

/-- The clamped timeout: `Math.min(Math.max(1000, timeout), MAX_TIMEOUT)`. -/
def safeTimeoutOf (timeout : Int) : Int := min (max 1000 timeout) 30000

/-- The POST /graph/query handler over a vault snapshot. -/
def graphQuery (files : List VFile) (req : GraphReq) : GraphResult :=
  let depth := req.depth.getD 1
  let direction := req.direction.getD .both
  let maxNodes := req.maxNodes.getD 1000
  let timeout := req.timeout.getD 5000
  let safeDepth := safeDepthOf depth
  let safeMaxNodes := safeMaxNodesOf maxNodes
  let safeTimeout := safeTimeoutOf timeout
  let fileMap := buildFileMap files
  let blIndex :=
    match req.fro with
    | some _ => buildBacklinksIndex files fileMap direction safeMaxNodes
    | none => []
  let ctx : GCtx := ⟨fileMap, blIndex, direction, safeDepth, safeMaxNodes, safeTimeout⟩
  let st0 : GState := ⟨[], [], [], false⟩
  let final :=
    match req.fro with
    | some f => (traverse ctx (safeDepth + 1).toNat 0 f st0).1
    | none =>
      let limitForFullGraph := min 100 safeMaxNodes
      let st := wholeVault ctx files limitForFullGraph st0
      if limitForFullGraph < (files.length : Int) then { st with truncated := true }
      else st
  ⟨final.nodes, final.edges, final.truncated, final.nodes.length, files.length⟩

/-- The two-file cyclic vault of the traversal claims. -/
def cycleFiles : List VFile :=
  [⟨"a.md", "a", "", "[[b]]"⟩, ⟨"b.md", "b", "", "[[a]]"⟩]

/-- A 53-note chain `n0 → n1 → … → n52`: deep enough to exceed the depth
hard cap of 50. -/
def chainFiles : List VFile :=
  (List.range 53).map (fun i =>
    ⟨"n" ++ toString i ++ ".md", "n" ++ toString i, "",
      if i = 52 then "" else "[[n" ++ toString (i + 1) ++ "]]"⟩)

/-! ## packages/cache — database model

The SQLite tables are lists of rows in rowid (insertion) order; the SQL
statements of the package become list operations.  Result-set order for
queries without ORDER BY is rowid order; ORDER BY is a stable sort. -/

structure FileRow where
  path : String
  mtime : Int
  size : Int
  title : String
  created : Option String
  modified : Option String
  /-- The `frontmatter` TEXT column: `JSON.stringify(frontmatter)` on write,
  `JSON.parse` on read — modelled as the record itself (the round-trip is
  the identity on plain data). -/
  frontmatter : Frontmatter
deriving DecidableEq, Repr

structure TagRow where
  tag : String
  path : String
deriving DecidableEq, Repr

structure LinkRow where
  source : String
  target : String
  type : LinkType
deriving DecidableEq, Repr

structure FtsRow where
  path : String
  title : String
  content : String
deriving DecidableEq, Repr

structure Db where
  files : List FileRow
  tags : List TagRow
  links : List LinkRow
  fts : List FtsRow
deriving DecidableEq, Repr

def emptyDb : Db := ⟨[], [], [], []⟩

/-- `INSERT OR REPLACE INTO files`: the conflicting row (path is the primary
key) is deleted and the new row appended with a fresh rowid. -/
def insertFileRow (db : Db) (row : FileRow) : Db :=
  { db with files := db.files.filter (fun r => r.path != row.path) ++ [row] }

/-- `DELETE FROM tags WHERE path = ?`. -/
def deleteTagsFor (db : Db) (p : String) : Db :=
  { db with tags := db.tags.filter (fun t => t.path != p) }

/-- `INSERT OR IGNORE INTO tags` with primary key `(tag, path)`. -/
def insertTagRow (db : Db) (t : TagRow) : Db :=
  if db.tags.any (fun t2 => t2.tag == t.tag && t2.path == t.path) then db
  else { db with tags := db.tags ++ [t] }

/-- `DELETE FROM links WHERE source = ?`. -/
def deleteLinksFor (db : Db) (p : String) : Db :=
  { db with links := db.links.filter (fun l => l.source != p) }

/-- `INSERT OR IGNORE INTO links` with primary key `(source, target)` — the
`type` column is not part of the key. -/
def insertLinkRow (db : Db) (l : LinkRow) : Db :=
  if db.links.any (fun l2 => l2.source == l.source && l2.target == l.target) then db
  else { db with links := db.links ++ [l] }

/-- `DELETE FROM fts_content WHERE path = ?`. -/
def deleteFtsFor (db : Db) (p : String) : Db :=
  { db with fts := db.fts.filter (fun r => r.path != p) }

/-- `INSERT INTO fts_content`. -/
def insertFtsRow (db : Db) (r : FtsRow) : Db :=
  { db with fts := db.fts ++ [r] }

/-- `DELETE FROM files WHERE path = ?`. -/
def deleteFileRow (db : Db) (p : String) : Db :=
  { db with files := db.files.filter (fun r => r.path != p) }

/-! ## packages/cache/src/sync.ts -/

/-- The §6 frontmatter contract's output for one file: `data` and the body
`content` (gray-matter never throws to the caller; a YAML failure yields an
empty `data`, which is indistinguishable from frontmatter-less content). -/
structure ParsedFile where
  data : Frontmatter
  content : String
deriving DecidableEq, Repr

/-- One scanner entry: relative path, mtime, size, and the file's content as
read+parsed by step 5 of the sync; `raw = none` models a `readFileSync` that
throws. -/
structure DiskFile where
  path : String
  mtime : Int
  size : Int
  raw : Option ParsedFile
deriving DecidableEq, Repr

structure SyncStats where
  added : Nat
  modified : Nat
  deleted : Nat
  unchanged : Nat
  totalTime : Int
deriving DecidableEq, Repr

/-- The title derivation of processFile: frontmatter title if truthy, else
the basename without extension. -/
def titleOf (f : DiskFile) (parsed : ParsedFile) : String :=
  let fallbackTitle := lastPiece (stripMdSuffix f.path)
  match parsed.data.title with
  | some t => if t = "" then fallbackTitle else t
  | none => fallbackTitle

/-- The files-table row written for one processed disk file. -/
def fileRowOf (f : DiskFile) (parsed : ParsedFile) : FileRow :=
  ⟨f.path, f.mtime, f.size, titleOf f parsed, parsed.data.created,
    parsed.data.modified, parsed.data⟩

/-- `processFile` of syncCache: read (bail out silently on failure), parse
frontmatter, derive the title, then replace the file's rows in the four
tables. -/
def processFile (db : Db) (f : DiskFile) : Db :=
  match f.raw with
  | none => db
  | some parsed =>
    let fm := parsed.data
    let content := parsed.content
    let db := insertFileRow db (fileRowOf f parsed)
    let db := deleteTagsFor db f.path
    let allTags := dedupFirst (fm.tags.getD [] ++ extractInlineTags content)
    let db := allTags.foldl (fun db tag => insertTagRow db ⟨tag, f.path⟩) db
    let db := deleteLinksFor db f.path
    let db := (extractLinks content).foldl
      (fun db l => insertLinkRow db ⟨f.path, l.target, l.type⟩) db
    let db := deleteFtsFor db f.path
    insertFtsRow db ⟨f.path, titleOf f parsed, content⟩

/-- The `cachedMap` lookup: a JS `Map` built from `(path, mtime)` entries in
row order (a later duplicate key would shadow an earlier one). -/
def cachedMtime (files : List FileRow) (p : String) : Option Int :=
  (files.reverse.find? (fun r => r.path = p)).map (·.mtime)

/-- One iteration of the add/update loop of `syncCache`: classify a disk
file against the cached map loaded before the loop and process it. -/
def syncStep (db0 : Db) (acc : Db × SyncStats) (f : DiskFile) : Db × SyncStats :=
  match cachedMtime db0.files f.path with
  | none => (processFile acc.1 f, { acc.2 with added := acc.2.added + 1 })
  | some m =>
    if m ≠ f.mtime then
      (processFile acc.1 f, { acc.2 with modified := acc.2.modified + 1 })
    else (acc.1, { acc.2 with unchanged := acc.2.unchanged + 1 })

/-- The add/update pass of `syncCache` (step 3 and 5). -/
def syncPhase1 (db0 : Db) (disk : List DiskFile) : Db × SyncStats :=
  disk.foldl (syncStep db0) (db0, ⟨0, 0, 0, 0, 0⟩)

/-- One iteration of the deletion loop of `syncCache`: drop a cached row's
path if it is no longer on disk. -/
def syncStep2 (disk : List DiskFile) (acc : Db × SyncStats) (c : String × Int) :
    Db × SyncStats :=
  if disk.any (fun f => f.path = c.1) then acc
  else
    let db := deleteFileRow (deleteFtsFor (deleteLinksFor (deleteTagsFor acc.1 c.1) c.1) c.1) c.1
    (db, { acc.2 with deleted := acc.2.deleted + 1 })

/-- The deletion pass of `syncCache` (step 4 and 6) over the rows loaded at
the start, against the disk path set. -/
def syncPhase2 (disk : List DiskFile) (acc : Db × SyncStats)
    (cached : List (String × Int)) : Db × SyncStats :=
  cached.foldl (syncStep2 disk) acc

/-- `syncCache(db, vaultPath)`: the scanner's output is the `disk` list (the
File Scanner is specified separately and consumed here at its interface);
all writes happen in one transaction; `totalTime` is 0 in the model
(wall-clock time is not modelled). -/
def syncCache (db0 : Db) (disk : List DiskFile) : Db × SyncStats :=
  let cachedFiles := db0.files.map (fun r => (r.path, r.mtime))
  let p1 := syncPhase1 db0 disk
  let p2 := syncPhase2 disk p1 cachedFiles
  (p2.1, { p2.2 with totalTime := 0 })

/-! ## packages/cache query layer (index.ts, search.ts) -/

inductive CacheError where
  | invalidPath (path : String)
deriving DecidableEq, Repr

structure NoteInfo where
  path : String
  title : String
  tags : List String
  created : Option String
  modified : Option String
deriving DecidableEq, Repr

/-- `x || undefined`: an SQL NULL or empty string becomes `undefined`. -/
def jsOrUndefined : Option String → Option String
  | some s => if s = "" then none else some s
  | none => none

/-- The NoteInfo mapping shared by the query methods: strip `.md`, read the
`tags` array out of the parsed frontmatter. -/
def toNoteInfo (row : FileRow) : NoteInfo :=
  ⟨stripMdSuffix row.path, row.title, row.frontmatter.tags.getD [],
    jsOrUndefined row.created, jsOrUndefined row.modified⟩

/-- Public path argument normalization: append `.md` when absent. -/
def normalizePath (p : String) : String :=
  if jsEndsWith p ".md" then p else p ++ ".md"

/-- `getOutlinks(path)`. -/
def getOutlinks (db : Db) (path : String) : List (String × LinkType) :=
  ((db.links.filter (fun l => l.source == normalizePath path)).map
    (fun l => (l.target, l.type)))

/-- `getBacklinks(path)`: match the normalized path, the path without its
extension, or the bare basename. -/
def getBacklinks (db : Db) (path : String) : List (String × LinkType) :=
  let np := normalizePath path
  let basename := lastPiece (stripMdSuffix np)
  ((db.links.filter (fun l =>
      l.target == np || l.target == stripMdSuffix np || l.target == basename)).map
    (fun l => (l.source, l.type)))

/-- `getFrontmatter(path)`: the first (unique, by primary key) row. -/
def getFrontmatter (db : Db) (path : String) : Option Frontmatter :=
  ((db.files.find? (fun r => r.path == normalizePath path)).map (·.frontmatter))

/-- `getNoteInfo(path)`. -/
def getNoteInfo (db : Db) (path : String) : Option NoteInfo :=
  ((db.files.find? (fun r => r.path == normalizePath path)).map toNoteInfo)

/-- Strict "comes first" for `DESC NULLS LAST` on a TEXT column (SQLite
compares TEXT by code units under the default BINARY collation). -/
def descNLBefore : Option String → Option String → Bool
  | some x, some y => jsLtChars y.data x.data
  | some _, none => true
  | none, _ => false

/-- `ORDER BY modified DESC NULLS LAST` as a total preorder. -/
def leModified (a b : FileRow) : Bool :=
  descNLBefore a.modified b.modified ||
    (!(descNLBefore b.modified a.modified))

/-- `ORDER BY modified DESC NULLS LAST, created DESC NULLS LAST`. -/
def leModifiedCreated (a b : FileRow) : Bool :=
  descNLBefore a.modified b.modified ||
    (!(descNLBefore b.modified a.modified) &&
      (descNLBefore a.created b.created || !(descNLBefore b.created a.created)))

/-- JS truthiness of the `limit` option: `LIMIT` is appended only for a
non-zero, present limit. -/
def applyLimit {α : Type} (limit : Option Nat) (rows : List α) : List α :=
  match limit with
  | some n => if n = 0 then rows else rows.take n
  | none => rows

/-- node:path `normalize` (posix), modelled from the stdlib's documented
behaviour: resolve `.` and `..` segments, collapse separators, preserve a
trailing slash. -/
def posixNormalize (p : String) : String :=
  if p = "" then "."
  else
    let isAbs := jsStartsWith p "/"
    let hasTrail := jsEndsWith p "/"
    let segs := (splitChar '/' p).filter (fun s => s != "" && s != ".")
    let out := segs.foldl
      (fun (acc : List String) s =>
        if s = ".." then
          if acc ≠ [] ∧ acc.getLast? ≠ some ".." then acc.dropLast
          else if isAbs then acc else acc ++ [s]
        else acc ++ [s])
      []
    let body := String.intercalate "/" out
    if body = "" then (if isAbs then "/" else if hasTrail then "./" else ".")
    else
      (if isAbs then "/" ++ body else body) ++ (if hasTrail then "/" else "")

/-- `validateFolder`: falsy folders pass through; a normalized folder
containing `..` raises InvalidPath before any table is touched. -/
def validateFolder : Option String → Except CacheError (Option String)
  | none => .ok none
  | some f =>
    if f = "" then .ok none
    else
      let n := posixNormalize f
      if containsSub n ".." then .error (.invalidPath f) else .ok (some n)

/-- `path LIKE 'folder%'`: SQLite LIKE is ASCII-case-insensitive.  (The `%`
and `_` wildcard interpretation of characters inside `folder` itself is not
modelled; the claims under proof do not exercise them.) -/
def likeStarts (pat s : String) : Bool :=
  (lowerAscii pat).data.isPrefixOf (lowerAscii s).data

/-- `t.tag LIKE '%tag%'`. -/
def likeContains (needle hay : String) : Bool :=
  containsSub (lowerAscii hay) (lowerAscii needle)

structure QueryOpts where
  folder : Option String := none
  limit : Option Nat := none

/-- `listNotes(options)`. -/
def listNotes (db : Db) (opts : QueryOpts) : Except CacheError (List NoteInfo) :=
  (validateFolder opts.folder).map (fun folder =>
    let rows :=
      match folder with
      | some f => db.files.filter (fun r => likeStarts f r.path)
      | none => db.files
    ((applyLimit opts.limit (sortWith leModifiedCreated rows)).map toNoteInfo))

/-- `getAllTags()`: tag → number of rows (one per file), ordered by count
descending (grouping order and ties follow first occurrence in the model). -/
def getAllTags (db : Db) : List (String × Nat) :=
  sortWith (fun a b => b.2 ≤ a.2)
    ((dedupFirst (db.tags.map (·.tag))).map
      (fun t => (t, (db.tags.filter (fun r => r.tag == t)).length)))

structure TagOpts where
  exactMatch : Option Bool := none
  limit : Option Nat := none

/-- `getNotesByTag(tag, options)`. -/
def getNotesByTag (db : Db) (tag : String) (opts : TagOpts) : List NoteInfo :=
  let exact := opts.exactMatch.getD true
  let rows := db.files.filter (fun f =>
    db.tags.any (fun t =>
      t.path == f.path && (if exact then t.tag == tag else likeContains tag t.tag)))
  ((applyLimit opts.limit (sortWith leModified rows)).map toNoteInfo)

/-! ### searchContent (packages/cache/src/search.ts) -/

structure SearchMatch where
  line : Nat
  text : String
deriving DecidableEq, Repr

structure SearchResult where
  note : NoteInfo
  matchItems : List SearchMatch
deriving DecidableEq, Repr

/-- `query.replace(reQuote, '""')`: each single or double quote becomes two
double quotes. -/
def jsReplaceQuotes (q : String) : String :=
  ⟨q.data.foldr (fun c acc =>
    if c = '\'' || c = '"' then '"' :: '"' :: acc else c :: acc) []⟩

/-- Maximal runs of characters not satisfying `sep` (split + filter(Boolean)). -/
def wordsByAux (sep : Char → Bool) (cur : List Char) : List Char → List (List Char)
  | [] => if cur.isEmpty then [] else [cur.reverse]
  | c :: rest =>
    if sep c then
      if cur.isEmpty then wordsByAux sep [] rest
      else cur.reverse :: wordsByAux sep [] rest
    else wordsByAux sep (c :: cur) rest

def wordsBy (sep : Char → Bool) (l : List Char) : List (List Char) :=
  wordsByAux sep [] l

def isAlnumAscii (c : Char) : Bool :=
  ('a' ≤ c && c ≤ 'z') || ('A' ≤ c && c ≤ 'Z') || ('0' ≤ c && c ≤ '9')

/-- The FTS5 engine's tokens for a row (external collaborator, modelled as
case-folded ASCII word tokens over all three indexed columns; porter
stemming is not modelled). -/
def docTokens (ft : FtsRow) : List (List Char) :=
  wordsBy (fun c => !(isAlnumAscii c))
    (lowerAscii (ft.path ++ " " ++ ft.title ++ " " ++ ft.content)).data

/-- `fts_content MATCH '"t1"* OR "t2"* OR …'`: some term is a (case-folded)
token prefix. -/
def ftsRowMatch (terms : List String) (ft : FtsRow) : Bool :=
  terms.any (fun t => (docTokens ft).any (fun tok => (lowerAscii t).data.isPrefixOf tok))

/-- The engine's `snippet(...)` context window (external collaborator,
modelled as the row's content; the handler's marker-extraction loop then
takes its fallback branch, as the model snippet carries no match markers). -/
def snippetOf (ft : FtsRow) : String := ft.content

/-- `searchContent(db, query, options)`. -/
def searchContent (db : Db) (query : String) (opts : QueryOpts) :
    Except CacheError (List SearchResult) :=
  (validateFolder opts.folder).map (fun folder =>
    let limit := opts.limit.getD 50
    let terms := (wordsBy isWsChar (jsReplaceQuotes query).data).map (fun l => (⟨l⟩ : String))
    if terms.isEmpty then []
    else
      let joined := db.fts.filterMap (fun ft =>
        (db.files.find? (fun f => f.path == ft.path)).map (fun f => (f, ft)))
      let rows := joined.filter (fun r =>
        ftsRowMatch terms r.2 &&
          (match folder with
           | some f => likeStarts f r.1.path
           | none => true))
      (((rows.take limit).map (fun r =>
        ⟨toNoteInfo r.1, [⟨0, snippetOf r.2⟩]⟩)) : List SearchResult))

/-- The two-file vault of the concrete backlink scenario. -/
def disk9 : List DiskFile :=
  [⟨"a.md", 1, 5, some ⟨{}, "[[b]]"⟩⟩, ⟨"b.md", 2, 5, some ⟨{}, "#work"⟩⟩]

/-- A vault of 51 one-word notes all matching the query "hello". -/
def disk8 : List DiskFile :=
  (List.range 51).map (fun i =>
    ⟨"f" ++ toString i ++ ".md", 1, 5, some ⟨{}, "hello world"⟩⟩)

/-! ## Sanity evaluations of the embedding on concrete inputs -/

example :
    graphQuery cycleFiles { fro := some "a.md", depth := some 3 } =
      ⟨[⟨"a", "a", ""⟩, ⟨"b", "b", ""⟩],
        [⟨"a", "b", .wiki⟩, ⟨"b", "a", .wiki⟩], false, 2, 2⟩ := by decide

example :
    graphQuery cycleFiles { fro := some "a.md", depth := some 0 } =
      ⟨[⟨"a", "a", ""⟩, ⟨"b", "b", ""⟩],
        [⟨"a", "b", .wiki⟩, ⟨"b", "a", .wiki⟩], false, 2, 2⟩ := by decide

set_option maxRecDepth 100000 in
example :
    (graphQuery chainFiles
      { fro := some "n0.md", depth := some 999999, direction := some .outDir }).truncated
        = false := by decide

example : getBacklinks (syncCache emptyDb disk9).1 "b" = [("a.md", .wiki)] := by decide

example : getAllTags (syncCache emptyDb disk9).1 = [("work", 1)] := by decide

example : (syncCache emptyDb disk9).2 = ⟨2, 0, 0, 0, 0⟩ := by decide

example : (syncCache (syncCache emptyDb disk9).1 disk9).2 = ⟨0, 0, 0, 2, 0⟩ := by decide

set_option maxRecDepth 400000 in
example :
    ((searchContent (syncCache emptyDb disk8).1 "hello" {}).toOption.map List.length)
      = some 50 := by decide

example : extractLinks "[[b]]" = [⟨"b", .wiki⟩] := by decide

example : extractLinks "[x](foo.md#sec)" = [⟨"foo.md", .markdown⟩] := by decide

example : extractLinks "[x](foo.md)" = [⟨"foo", .markdown⟩] := by decide

example : extractLinks "[x](http://e.com)" = [] := by decide

example : extractLinks "[x](#anchor)" = [] := by decide

example : extractLinks "[[a|alias]] [x]( b.md )" = [⟨"a", .wiki⟩, ⟨"b", .markdown⟩] := by decide

example : extractInlineTags "#a/b `#code` #a/b x" = ["a/b"] := by decide

example : getTagsFromNote "`#nottag` #realtag" {} = ["realtag"] := by decide

example : getTagsFromNote "see https://x.io/#frag #z #a" {} = ["a", "z"] := by decide

/-! ## Supporting lemmas -/

theorem jsEndsWith_append_md (p : String) : jsEndsWith (p ++ ".md") ".md" = true := by
  unfold jsEndsWith
  rw [String.data_append, List.isSuffixOf_iff_suffix]
  exact List.suffix_append _ _

theorem normalizePath_of_not_md (p : String) (h : jsEndsWith p ".md" = false) :
    normalizePath p = p ++ ".md" := by
  unfold normalizePath
  rw [h]
  simp

theorem normalizePath_append_md (p : String) :
    normalizePath (p ++ ".md") = p ++ ".md" := by
  unfold normalizePath
  rw [jsEndsWith_append_md]
  simp

/-! ## Claim theorems -/

/-- Claim C10 (confirmed): for every cache state and path `p` not ending in
".md", each of getOutlinks, getBacklinks, getFrontmatter and getNoteInfo
returns the same result for `p` as for `p ++ ".md"` — the public path
argument is normalized by appending the extension when absent. -/
theorem c10_extension_interchangeable (db : Db) (p : String)
    (h : jsEndsWith p ".md" = false) :
    getOutlinks db p = getOutlinks db (p ++ ".md") ∧
    getBacklinks db p = getBacklinks db (p ++ ".md") ∧
    getFrontmatter db p = getFrontmatter db (p ++ ".md") ∧
    getNoteInfo db p = getNoteInfo db (p ++ ".md") := by
  have hn : normalizePath p = normalizePath (p ++ ".md") := by
    rw [normalizePath_of_not_md p h, normalizePath_append_md]
  refine ⟨?_, ?_, ?_, ?_⟩ <;>
    simp only [getOutlinks, getBacklinks, getFrontmatter, getNoteInfo, hn]

/-- Witness for C10 at a concrete synced vault and the path "b". -/
theorem c10_extension_interchangeable_witness :
    jsEndsWith "b" ".md" = false ∧
      (getOutlinks (syncCache emptyDb disk9).1 "b" =
          getOutlinks (syncCache emptyDb disk9).1 ("b" ++ ".md") ∧
        getBacklinks (syncCache emptyDb disk9).1 "b" =
          getBacklinks (syncCache emptyDb disk9).1 ("b" ++ ".md") ∧
        getFrontmatter (syncCache emptyDb disk9).1 "b" =
          getFrontmatter (syncCache emptyDb disk9).1 ("b" ++ ".md") ∧
        getNoteInfo (syncCache emptyDb disk9).1 "b" =
          getNoteInfo (syncCache emptyDb disk9).1 ("b" ++ ".md")) :=
  ⟨by decide, c10_extension_interchangeable (syncCache emptyDb disk9).1 "b" (by decide)⟩

/-! ### Order and de-duplication lemmas -/

theorem char_toNat_inj {a b : Char} (h : a.toNat = b.toNat) : a = b := by
  apply Char.ext
  exact UInt32.ext h

theorem jsLtChars_trichotomy (a b : List Char) :
    jsLtChars a b = true ∨ a = b ∨ jsLtChars b a = true := by
  induction a generalizing b with
  | nil => cases b <;> simp [jsLtChars]
  | cons x xs ih =>
    cases b with
    | nil => simp [jsLtChars]
    | cons y ys =>
      rcases Nat.lt_trichotomy x.toNat y.toNat with h | h | h
      · left; simp [jsLtChars, h]
      · have hxy : x = y := char_toNat_inj h
        subst hxy
        rcases ih ys with h2 | h2 | h2
        · left; simp [jsLtChars, h2]
        · right; left; rw [h2]
        · right; right; simp [jsLtChars, h2]
      · right; right; simp [jsLtChars, h]

theorem jsLtChars_asymm {a b : List Char} (h : jsLtChars a b = true) :
    jsLtChars b a = false := by
  induction a generalizing b with
  | nil =>
    cases b with
    | nil => simp [jsLtChars] at h
    | cons y ys => simp [jsLtChars]
  | cons x xs ih =>
    cases b with
    | nil => simp [jsLtChars] at h
    | cons y ys =>
      by_cases h1 : x.toNat < y.toNat
      · simp [jsLtChars, h1, Nat.lt_asymm h1, Nat.ne_of_gt h1]
      · by_cases h2 : y.toNat < x.toNat
        · simp [jsLtChars, h1, h2] at h
        · have hxy : x = y := char_toNat_inj (Nat.le_antisymm (Nat.le_of_not_lt h2) (Nat.le_of_not_lt h1))
          subst hxy
          simp only [jsLtChars, h1, if_false] at h ⊢
          exact ih h

theorem jsLtChars_trans {a b c : List Char} (h1 : jsLtChars a b = true)
    (h2 : jsLtChars b c = true) : jsLtChars a c = true := by
  induction a generalizing b c with
  | nil =>
    cases b with
    | nil => simp [jsLtChars] at h1
    | cons y ys =>
      cases c with
      | nil => simp [jsLtChars] at h2
      | cons z zs => simp [jsLtChars]
  | cons x xs ih =>
    cases b with
    | nil => simp [jsLtChars] at h1
    | cons y ys =>
      cases c with
      | nil => simp [jsLtChars] at h2
      | cons z zs =>
        by_cases hxy : x.toNat < y.toNat
        · by_cases hyz : y.toNat < z.toNat
          · simp [jsLtChars, Nat.lt_trans hxy hyz]
          · by_cases hzy : z.toNat < y.toNat
            · simp [jsLtChars, hyz, hzy] at h2
            · have : y = z := char_toNat_inj (Nat.le_antisymm (Nat.le_of_not_lt hzy) (Nat.le_of_not_lt hyz))
              subst this
              simp [jsLtChars, hxy]
        · by_cases hyx : y.toNat < x.toNat
          · simp [jsLtChars, hxy, hyx] at h1
          · have : x = y := char_toNat_inj (Nat.le_antisymm (Nat.le_of_not_lt hyx) (Nat.le_of_not_lt hxy))
            subst this
            by_cases hyz : x.toNat < z.toNat
            · simp [jsLtChars, hyz]
            · by_cases hzy : z.toNat < x.toNat
              · simp [jsLtChars, hyz, hzy] at h2
              · simp only [jsLtChars, hxy, hyx, hyz, hzy, if_false] at h1 h2 ⊢
                exact ih h1 h2

theorem jsLtChars_le_trans {a b c : List Char} (h1 : jsLtChars b a = false)
    (h2 : jsLtChars c b = false) : jsLtChars c a = false := by
  by_contra hc
  rw [Bool.not_eq_false] at hc
  rcases jsLtChars_trichotomy c b with h | h | h
  · rw [h] at h2; cases h2
  · subst h; rw [hc] at h1; cases h1
  · have := jsLtChars_trans h hc
    rw [this] at h1
    cases h1

theorem jsLeStr_total (a b : String) (h : jsLeStr a b = false) : jsLeStr b a = true := by
  unfold jsLeStr at h ⊢
  simp only [Bool.not_eq_false'] at h
  simp [jsLtChars_asymm h]

theorem jsLeStr_trans (a b c : String) (h1 : jsLeStr a b = true)
    (h2 : jsLeStr b c = true) : jsLeStr a c = true := by
  unfold jsLeStr at h1 h2 ⊢
  simp only [Bool.not_eq_true'] at h1 h2
  simp only [Bool.not_eq_true']
  exact jsLtChars_le_trans h1 h2

theorem insertLe_perm {α : Type} (le : α → α → Bool) (x : α) (l : List α) :
    List.Perm (insertLe le x l) (x :: l) := by
  induction l with
  | nil => rfl
  | cons y ys ih =>
    unfold insertLe
    by_cases h : le x y = true
    · rw [h]; simp
    · rw [Bool.not_eq_true] at h
      rw [h]
      simp only [Bool.false_eq_true, if_false]
      exact (ih.cons y).trans (List.Perm.swap x y ys)

theorem sortWith_perm {α : Type} (le : α → α → Bool) (l : List α) :
    List.Perm (sortWith le l) l := by
  induction l with
  | nil => rfl
  | cons x xs ih => exact (insertLe_perm le x (sortWith le xs)).trans (ih.cons x)

theorem mem_sortWith {α : Type} (le : α → α → Bool) (l : List α) (x : α) :
    x ∈ sortWith le l ↔ x ∈ l :=
  (sortWith_perm le l).mem_iff

theorem pairwise_insertLe {α : Type} (le : α → α → Bool)
    (htot : ∀ a b, le a b = false → le b a = true)
    (htrans : ∀ a b c, le a b = true → le b c = true → le a c = true)
    (x : α) (l : List α) (hl : l.Pairwise (fun a b => le a b = true)) :
    (insertLe le x l).Pairwise (fun a b => le a b = true) := by
  induction l with
  | nil => simp [insertLe]
  | cons y ys ih =>
    rcases List.pairwise_cons.1 hl with ⟨hy, hys⟩
    unfold insertLe
    by_cases h : le x y = true
    · rw [h]
      refine List.pairwise_cons.2 ⟨?_, hl⟩
      intro z hz
      rcases List.mem_cons.1 hz with rfl | hz
      · exact h
      · exact htrans x y z h (hy z hz)
    · rw [Bool.not_eq_true] at h
      rw [h]
      simp only [Bool.false_eq_true, if_false]
      refine List.pairwise_cons.2 ⟨?_, ih hys⟩
      intro z hz
      rcases List.mem_cons.1 ((insertLe_perm le x ys).mem_iff.1 hz) with hzx | hz
      · rw [hzx]; exact htot x y h
      · exact hy z hz

theorem pairwise_sortWith {α : Type} (le : α → α → Bool)
    (htot : ∀ a b, le a b = false → le b a = true)
    (htrans : ∀ a b c, le a b = true → le b c = true → le a c = true)
    (l : List α) :
    (sortWith le l).Pairwise (fun a b => le a b = true) := by
  induction l with
  | nil => simp [sortWith]
  | cons x xs ih => exact pairwise_insertLe le htot htrans x (sortWith le xs) ih

theorem mem_dedupFirstAux (l : List String) :
    ∀ (seen : List String) (x : String),
      x ∈ dedupFirstAux seen l ↔ (x ∈ l ∧ x ∉ seen) := by
  induction l with
  | nil => intro seen x; simp [dedupFirstAux]
  | cons y ys ih =>
    intro seen x
    unfold dedupFirstAux
    by_cases h : seen.contains y = true
    · rw [h]
      simp only [if_true]
      rw [ih seen x]
      have hy : y ∈ seen := by
        rw [List.contains_iff_exists_mem_beq] at h
        rcases h with ⟨a, ha, hab⟩
        rwa [show y = a from by simpa using hab]
      constructor
      · rintro ⟨hx, hns⟩; exact ⟨List.mem_cons_of_mem y hx, hns⟩
      · rintro ⟨hx, hns⟩
        rcases List.mem_cons.1 hx with rfl | hx
        · exact absurd hy hns
        · exact ⟨hx, hns⟩
    · rw [Bool.not_eq_true] at h
      rw [h]
      simp only [Bool.false_eq_true, if_false, List.mem_cons]
      rw [ih (y :: seen) x]
      constructor
      · rintro (rfl | ⟨hx, hns⟩)
        · refine ⟨Or.inl rfl, fun hc => ?_⟩
          have : seen.contains x = true := by
            rw [List.contains_iff_exists_mem_beq]
            exact ⟨x, hc, by simp⟩
          rw [this] at h; cases h
        · exact ⟨Or.inr hx, fun hc => hns (List.mem_cons_of_mem y hc)⟩
      · rintro ⟨rfl | hx, hns⟩
        · exact Or.inl rfl
        · by_cases hxy : x = y
          · exact Or.inl hxy
          · exact Or.inr ⟨hx, fun hc => (List.mem_cons.1 hc).elim hxy hns⟩

theorem nodup_dedupFirstAux (l : List String) :
    ∀ seen : List String, (dedupFirstAux seen l).Nodup := by
  induction l with
  | nil => intro seen; simp [dedupFirstAux]
  | cons y ys ih =>
    intro seen
    unfold dedupFirstAux
    by_cases h : seen.contains y = true
    · rw [h]; simpa using ih seen
    · rw [Bool.not_eq_true] at h
      rw [h]
      simp only [Bool.false_eq_true, if_false]
      refine List.nodup_cons.2 ⟨?_, ih (y :: seen)⟩
      intro hc
      exact ((mem_dedupFirstAux ys (y :: seen) y).1 hc).2 (List.mem_cons_self y seen)

theorem mem_dedupFirst (l : List String) (x : String) :
    x ∈ dedupFirst l ↔ x ∈ l := by
  unfold dedupFirst
  rw [mem_dedupFirstAux]
  simp

theorem nodup_dedupFirst (l : List String) : (dedupFirst l).Nodup :=
  nodup_dedupFirstAux l []


/-- Claim C6 (confirmed): `getTagsFromNote` returns the sorted (JS default
comparator), duplicate-free union of the frontmatter `tags` array and the
inline tags extracted after removal of fenced code blocks, inline code spans
and bare URLs; concretely, a `#tag` inside inline code or a URL is not
extracted while an identical tag outside them is. -/
theorem c6_tag_extraction :
    (∀ content fm, (getTagsFromNote content fm).Pairwise (fun a b => jsLeStr a b = true)) ∧
    (∀ content fm, (getTagsFromNote content fm).Nodup) ∧
    (∀ content fm t,
      t ∈ getTagsFromNote content fm ↔
        t ∈ fm.tags.getD [] ∨ t ∈ cliExtractInlineTags content) ∧
    getTagsFromNote "`#nottag` #realtag" {} = ["realtag"] ∧
    getTagsFromNote "`#same` #same" {} = ["same"] ∧
    getTagsFromNote "https://x.io/#frag" {} = [] ∧
    getTagsFromNote "https://x.io/#frag #frag" {} = ["frag"] ∧
    getTagsFromNote "```
#infence
```
#out" {} = ["out"] ∧
    getTagsFromNote "" ⟨none, some ["b", "a", "b"], none, none⟩ = ["a", "b"] := by
  refine ⟨?_, ?_, ?_, by decide, by decide, by decide, by decide, by decide, by decide⟩
  · intro content fm
    exact pairwise_sortWith jsLeStr jsLeStr_total jsLeStr_trans _
  · intro content fm
    exact ((sortWith_perm jsLeStr _).nodup_iff).2 (nodup_dedupFirst _)
  · intro content fm t
    unfold getTagsFromNote
    rw [mem_sortWith, mem_dedupFirst, List.mem_append]

/-- Claim C9 (confirmed): `getBacklinks` is a pure lookup over the links
table returning exactly the rows whose target equals the normalized path,
the path without extension, or the bare basename; in the concrete two-note
vault (`a.md` containing `[[b]]`), `getBacklinks "b"` is exactly
`[{source: "a.md", type: wiki}]`. -/
theorem c9_backlinks_lookup :
    (∀ (db : Db) (p : String) (r : String × LinkType),
      r ∈ getBacklinks db p ↔
        ∃ l, l ∈ db.links ∧ l.source = r.1 ∧ l.type = r.2 ∧
          (l.target = normalizePath p ∨
            l.target = stripMdSuffix (normalizePath p) ∨
            l.target = lastPiece (stripMdSuffix (normalizePath p)))) ∧
    getBacklinks (syncCache emptyDb disk9).1 "b" = [("a.md", .wiki)] := by
  refine ⟨?_, by decide⟩
  intro db p r
  unfold getBacklinks
  constructor
  · intro h
    rcases List.mem_map.1 h with ⟨l, hl, hfl⟩
    rcases List.mem_filter.1 hl with ⟨hmem, hpred⟩
    simp only [Bool.or_eq_true, beq_iff_eq] at hpred
    refine ⟨l, hmem, ?_, ?_, or_assoc.mp hpred⟩
    · rw [← hfl]
    · rw [← hfl]
  · rintro ⟨l, hmem, h1, h2, h3⟩
    apply List.mem_map.2
    refine ⟨l, List.mem_filter.2 ⟨hmem, ?_⟩, ?_⟩
    · simp only [Bool.or_eq_true, beq_iff_eq]
      exact or_assoc.mpr h3
    · obtain ⟨r1, r2⟩ := r
      simp only at h1 h2
      rw [h1, h2]

set_option maxRecDepth 400000 in
/-- Claim C8 counterexample: in a vault of 51 notes all matching the query
"hello", `searchContent` with the limit option absent returns only 50
results — the absent limit defaults to 50 rather than meaning unbounded. -/
theorem c8_counterexample :
    ((syncCache emptyDb disk8).1.fts.filter (fun ft => ftsRowMatch ["hello"] ft)).length = 51 ∧
    ((searchContent (syncCache emptyDb disk8).1 "hello" {}).toOption.map List.length)
      = some 50 := by
  constructor
  · decide
  · decide

/-- Claim C8 as amended: for `listNotes` and `getNotesByTag` an absent limit
is unbounded — every matching record is in the result; `searchContent`
instead defaults an absent limit to 50, so its result never exceeds
`options.limit ?? 50` rows. -/
theorem c8_absent_limit :
    (∀ (db : Db) (res : List NoteInfo) (f : FileRow),
      listNotes db ⟨none, none⟩ = .ok res → f ∈ db.files → toNoteInfo f ∈ res) ∧
    (∀ (db : Db) (fol nf : String) (res : List NoteInfo) (f : FileRow),
      validateFolder (some fol) = .ok (some nf) →
      listNotes db ⟨some fol, none⟩ = .ok res →
      f ∈ db.files → likeStarts nf f.path = true → toNoteInfo f ∈ res) ∧
    (∀ (db : Db) (tag : String) (ex : Bool) (f : FileRow),
      f ∈ db.files →
      db.tags.any (fun t =>
        t.path == f.path && (if ex then t.tag == tag else likeContains tag t.tag)) = true →
      toNoteInfo f ∈ getNotesByTag db tag ⟨some ex, none⟩) ∧
    (∀ (db : Db) (q : String) (opts : QueryOpts) (res : List SearchResult),
      searchContent db q opts = .ok res → res.length ≤ opts.limit.getD 50) := by
  refine ⟨?_, ?_, ?_, ?_⟩
  · intro db res f hres hf
    have hr : res = (sortWith leModifiedCreated db.files).map toNoteInfo := by
      have := hres.symm
      simpa [listNotes, validateFolder, Except.map, applyLimit] using this
    rw [hr]
    exact List.mem_map_of_mem toNoteInfo ((mem_sortWith _ _ _).2 hf)
  · intro db fol nf res f hvf hres hf hlike
    have hr : res = (sortWith leModifiedCreated
        (db.files.filter (fun r => likeStarts nf r.path))).map toNoteInfo := by
      rw [listNotes, hvf] at hres
      simp only [Except.map, Except.ok.injEq, applyLimit] at hres
      exact hres.symm
    rw [hr]
    exact List.mem_map_of_mem toNoteInfo
      ((mem_sortWith _ _ _).2 (List.mem_filter.2 ⟨hf, hlike⟩))
  · intro db tag ex f hf hcond
    unfold getNotesByTag
    simp only [Option.getD, applyLimit]
    exact List.mem_map_of_mem toNoteInfo
      ((mem_sortWith _ _ _).2 (List.mem_filter.2 ⟨hf, hcond⟩))
  · intro db q opts res hres
    cases hv : validateFolder opts.folder with
    | error e => rw [searchContent, hv] at hres; simp [Except.map] at hres
    | ok fol =>
      rw [searchContent, hv] at hres
      simp only [Except.map, Except.ok.injEq] at hres
      rw [← hres]
      by_cases hterms :
          ((wordsBy isWsChar (jsReplaceQuotes q).data).map (fun l => (⟨l⟩ : String))).isEmpty = true
      · simp [hterms]
      · simp only [hterms, Bool.false_eq_true, if_false]
        rw [List.length_map, List.length_take]
        exact Nat.min_le_left _ _

/-- Witness for the amended C8 at the concrete two-note vault: the record
for b.md (tagged "work") is in the un-limited getNotesByTag result. -/
theorem c8_absent_limit_witness :
    ((⟨"b.md", 2, 5, "b", none, none, {}⟩ : FileRow) ∈ (syncCache emptyDb disk9).1.files) ∧
    toNoteInfo ⟨"b.md", 2, 5, "b", none, none, {}⟩ ∈
      getNotesByTag (syncCache emptyDb disk9).1 "work" ⟨some true, none⟩ :=
  ⟨by decide, c8_absent_limit.2.2.1 (syncCache emptyDb disk9).1 "work" true
    ⟨"b.md", 2, 5, "b", none, none, {}⟩ (by decide) (by decide)⟩


/-! ### Scanner lemmas for tag extraction -/

theorem findTagsAux_all (p : Char → Bool) (fuel : Nat) :
    ∀ (l : List Char) (r : List Char), r ∈ findTagsAux p fuel l → r.all p = true := by
  induction fuel with
  | zero => intro l r h; simp [findTagsAux] at h
  | succ fuel ih =>
    intro l r h
    cases l with
    | nil => simp [findTagsAux] at h
    | cons c rest =>
      by_cases hc : c = '#'
      · rw [findTagsAux, if_pos hc] at h
        by_cases hrun : (rest.takeWhile p).isEmpty = true
        · rw [if_pos hrun] at h
          exact ih rest r h
        · rw [if_neg hrun] at h
          rcases List.mem_cons.1 h with rfl | h
          · exact List.all_eq_true.2 (fun x hx => List.mem_takeWhile_imp hx)
          · exact ih _ r h
      · rw [findTagsAux, if_neg hc] at h
        exact ih rest r h

theorem extractInlineTags_all (content : String) (t : String)
    (h : t ∈ extractInlineTags content) : t.data.all isTagCharCache = true := by
  unfold extractInlineTags at h
  rw [mem_dedupFirst] at h
  unfold findTags at h
  rcases List.mem_map.1 h with ⟨r, hr, rfl⟩
  exact findTagsAux_all isTagCharCache _ _ r hr

theorem cliExtractInlineTags_all (content : String) (t : String)
    (h : t ∈ cliExtractInlineTags content) : t.data.all isTagCharCli = true := by
  unfold cliExtractInlineTags at h
  rw [mem_dedupFirst] at h
  unfold findTags at h
  rcases List.mem_map.1 h with ⟨r, hr, rfl⟩
  exact findTagsAux_all isTagCharCli _ _ r hr

theorem rcbAux_eq_self (fuel : Nat) :
    ∀ l : List Char, '`' ∉ l → rcbAux fuel l = l := by
  induction fuel with
  | zero => intro l _; rfl
  | succ fuel ih =>
    intro l h
    cases l with
    | nil => rfl
    | cons c rest =>
      have hc : c ≠ '`' := fun hh => h (hh ▸ List.mem_cons_self c rest)
      have hrest : '`' ∉ rest := fun hh => h (List.mem_cons_of_mem c hh)
      unfold rcbAux
      split
      · omega
      · simp_all
      · rename_i heq
        rw [List.cons.injEq] at heq
        exact absurd heq.1 (by simpa using hc)
      · rename_i hfe heq
        rw [List.cons.injEq] at heq
        rw [← heq.1, ← heq.2, ← Nat.succ.inj hfe]
        rw [ih rest hrest]

theorem ricAux_eq_self (fuel : Nat) :
    ∀ l : List Char, '`' ∉ l → ricAux fuel l = l := by
  induction fuel with
  | zero => intro l _; rfl
  | succ fuel ih =>
    intro l h
    cases l with
    | nil => rfl
    | cons c rest =>
      have hc : c ≠ '`' := fun hh => h (hh ▸ List.mem_cons_self c rest)
      have hrest : '`' ∉ rest := fun hh => h (List.mem_cons_of_mem c hh)
      unfold ricAux
      split
      · omega
      · simp_all
      · rename_i heq
        rw [List.cons.injEq] at heq
        exact absurd heq.1 (by simpa using hc)
      · rename_i hfe heq
        rw [List.cons.injEq] at heq
        rw [← heq.1, ← heq.2, ← Nat.succ.inj hfe]
        rw [ih rest hrest]

theorem ruAux_eq_self (fuel : Nat) :
    ∀ l : List Char, 'h' ∉ l → ruAux fuel l = l := by
  induction fuel with
  | zero => intro l _; rfl
  | succ fuel ih =>
    intro l h
    cases l with
    | nil => rfl
    | cons c rest =>
      have hc : c ≠ 'h' := fun hh => h (hh ▸ List.mem_cons_self c rest)
      have hrest : 'h' ∉ rest := fun hh => h (List.mem_cons_of_mem c hh)
      unfold ruAux
      split
      · omega
      · simp_all
      · rename_i heq
        rw [List.cons.injEq] at heq
        exact absurd heq.1 (by simpa using hc)
      · rename_i hfe heq
        rw [List.cons.injEq] at heq
        rw [← heq.1, ← heq.2, ← Nat.succ.inj hfe]
        rw [ih rest hrest]

set_option maxRecDepth 40000 in
/-- Claim C7 counterexample: a 300-character tag token is recorded in full —
no fixed maximum length is applied to accepted tag tokens. -/
theorem c7_counterexample :
    extractInlineTags ("#" ++ (⟨List.replicate 300 'a'⟩ : String))
        = [⟨List.replicate 300 'a'⟩] ∧
      (⟨List.replicate 300 'a'⟩ : String).length = 300 := by
  constructor
  · decide
  · decide

/-- Claim C7 as amended: every accepted inline tag token is drawn from the
bounded character set (alphanumerics plus underscore, slash, hyphen for the
cache extractor; without slash for the CLI extractor), but token length is
not capped: for every bound there is an input whose recorded tag is longer. -/
theorem c7_tag_token_shape :
    (∀ content t, t ∈ extractInlineTags content → t.data.all isTagCharCache = true) ∧
    (∀ content t, t ∈ cliExtractInlineTags content → t.data.all isTagCharCli = true) ∧
    (∀ n : Nat, ∃ content t, t ∈ extractInlineTags content ∧ n ≤ t.length) := by
  refine ⟨extractInlineTags_all, cliExtractInlineTags_all, ?_⟩
  intro n
  refine ⟨⟨'#' :: List.replicate (n + 1) 'a'⟩, ⟨List.replicate (n + 1) 'a'⟩, ?_, ?_⟩
  · have hdata : ('#' :: List.replicate (n + 1) 'a' : List Char).length = n + 2 := by
      simp
    have hnb : '`' ∉ ('#' :: List.replicate (n + 1) 'a' : List Char) := by
      intro hmem
      rcases List.mem_cons.1 hmem with h | h
      · cases h
      · exact absurd (List.eq_of_mem_replicate h) (by decide)
    have hnh : 'h' ∉ ('#' :: List.replicate (n + 1) 'a' : List Char) := by
      intro hmem
      rcases List.mem_cons.1 hmem with h | h
      · cases h
      · exact absurd (List.eq_of_mem_replicate h) (by decide)
    unfold extractInlineTags removeUrls removeInlineCode removeCodeBlocks
    rw [show ((⟨'#' :: List.replicate (n + 1) 'a'⟩ : String).data
        = '#' :: List.replicate (n + 1) 'a') from rfl]
    rw [rcbAux_eq_self _ _ hnb]
    rw [ricAux_eq_self _ _ hnb]
    rw [ruAux_eq_self _ _ hnh]
    unfold findTags
    rw [hdata]
    rw [show findTagsAux isTagCharCache (n + 2) ('#' :: List.replicate (n + 1) 'a')
        = [List.replicate (n + 1) 'a'] from ?_]
    · simp [dedupFirst, dedupFirstAux]
    · rw [findTagsAux, if_pos rfl]
      rw [List.takeWhile_replicate, List.dropWhile_replicate]
      simp only [show isTagCharCache 'a' = true from rfl, if_true]
      have : (List.replicate (n + 1) 'a').isEmpty = false := by
        simp [List.isEmpty_iff]
      rw [this]
      simp only [Bool.false_eq_true, if_false]
      rw [show findTagsAux isTagCharCache (n + 1) ([] : List Char) = [] from ?_]
      · cases n <;> rfl
  · rw [String.length]
    simp

/-- Witness for the amended C7: the concrete token "ab" of "#ab" is in the
extractor's output and satisfies the character-set bound. -/
theorem c7_tag_token_shape_witness :
    ("ab" ∈ extractInlineTags "#ab") ∧ ("ab".data.all isTagCharCache = true) :=
  ⟨by decide, c7_tag_token_shape.1 "#ab" "ab" (by decide)⟩


/-! ### Scanner lemmas for link extraction -/

theorem wikiScanAux_nil (fuel : Nat) : wikiScanAux fuel [] = [] := by
  cases fuel <;> rfl

theorem mdScanAux_nil (fuel : Nat) : mdScanAux fuel [] = [] := by
  cases fuel <;> rfl

theorem chainNoWiki_of_no_bracket (l : List Char) (h : ∀ c ∈ l, c ≠ '[') :
    l.Chain' (fun a b => ¬(a = '[' ∧ b = '[')) := by
  induction l with
  | nil => simp
  | cons c rest ih =>
    rw [List.chain'_cons']
    refine ⟨?_, ih fun x hx => h x (List.mem_cons_of_mem _ hx)⟩
    rintro y hy ⟨_, hy2⟩
    exact h y (List.mem_cons_of_mem _ (List.mem_of_mem_head? hy)) hy2

theorem wikiScanAux_eq_nil (fuel : Nat) :
    ∀ l : List Char, l.Chain' (fun a b => ¬(a = '[' ∧ b = '[')) →
      wikiScanAux fuel l = [] := by
  induction fuel with
  | zero => intro l _; rfl
  | succ fuel ih =>
    intro l h
    unfold wikiScanAux
    split
    · omega
    · rfl
    · exact absurd ⟨rfl, rfl⟩ (List.chain'_cons.1 h).1
    · rename_i fuel2 c rest hnc heqn
      rw [← Nat.succ.inj heqn]
      exact ih rest h.tail

theorem mdScanAux_bracket (fuel : Nat) (rest : List Char) :
    mdScanAux (fuel + 1) ('[' :: rest) =
      (let alias_ := rest.takeWhile (fun c => c != ']')
       if alias_.isEmpty then mdScanAux fuel rest
       else
         match rest.dropWhile (fun c => c != ']') with
         | ']' :: '(' :: r2 =>
           let href := r2.takeWhile (fun c => c != ')')
           if href.isEmpty then mdScanAux fuel rest
           else
             match r2.dropWhile (fun c => c != ')') with
             | ')' :: r3 => href :: mdScanAux fuel r3
             | _ => mdScanAux fuel rest
         | _ => mdScanAux fuel rest) := rfl

theorem mdScanAux_single (fuel : Nat) (href : List Char) (hne : href ≠ [])
    (hnp : ')' ∉ href) :
    mdScanAux (fuel + 1) ('[' :: 'x' :: ']' :: '(' :: (href ++ [')'])) = [href] := by
  have hallp : ∀ c ∈ href, (c != ')') = true := by
    intro c hc
    simp only [bne_iff_ne, ne_eq]
    exact fun he => hnp (he ▸ hc)
  have htake : (href ++ [')']).takeWhile (fun c => c != ')') = href := by
    rw [List.takeWhile_append_of_pos hallp]
    rw [List.takeWhile_cons_of_neg (by decide)]
    exact List.append_nil href
  have hdrop : (href ++ [')']).dropWhile (fun c => c != ')') = [')'] := by
    rw [List.dropWhile_append_of_pos hallp]
    rw [List.dropWhile_cons_of_neg (by decide)]
  have hhe : href.isEmpty = false := by
    cases href with
    | nil => exact absurd rfl hne
    | cons a l => rfl
  rw [mdScanAux_bracket]
  simp only [List.takeWhile_cons, List.dropWhile_cons, htake, hdrop, hhe,
    show (('x' : Char) != ']') = true from rfl,
    show ((']' : Char) != ']') = false from rfl,
    List.isEmpty_cons, Bool.false_eq_true, if_true, if_false, mdScanAux_nil]

theorem jsTrim_eq_self (s : String) (h : ∀ c ∈ s.data, isWsChar c = false) :
    jsTrim s = s := by
  unfold jsTrim
  have h1 : s.data.dropWhile isWsChar = s.data := by
    cases hd : s.data with
    | nil => rfl
    | cons a l =>
      rw [List.dropWhile_cons_of_neg]
      rw [h a (hd ▸ List.mem_cons_self a l)]
      simp
  rw [h1]
  have h2 : s.data.reverse.dropWhile isWsChar = s.data.reverse := by
    cases hd : s.data.reverse with
    | nil => rfl
    | cons a l =>
      rw [List.dropWhile_cons_of_neg]
      rw [h a (List.mem_reverse.1 (hd ▸ List.mem_cons_self a l))]
      simp
  rw [h2, List.reverse_reverse]


theorem extractLinks_single_inline (href : String) (hne : href.data ≠ [])
    (hbr : '[' ∉ href.data) (hnp : ')' ∉ href.data)
    (hws : ∀ c ∈ href.data, isWsChar c = false) :
    extractLinks ("[x](" ++ href ++ ")") =
      if jsStartsWith href "http://" || jsStartsWith href "https://"
          || jsStartsWith href "#" then []
      else if mdTargetOfHref href = "" then []
      else [⟨mdTargetOfHref href, .markdown⟩] := by
  have hdata : ("[x](" ++ href ++ ")").data
      = '[' :: 'x' :: ']' :: '(' :: (href.data ++ [')']) := by
    rw [String.data_append, String.data_append]
    simp
  have hM : ∀ c ∈ href.data ++ [')'], c ≠ '[' := by
    intro c hc
    rcases List.mem_append.1 hc with h | h
    · exact fun he => hbr (he ▸ h)
    · rw [List.mem_singleton.1 h]
      decide
  have hwiki : wikiScan ("[x](" ++ href ++ ")") = [] := by
    unfold wikiScan
    rw [hdata]
    apply wikiScanAux_eq_nil
    rw [List.chain'_cons]
    refine ⟨by decide, ?_⟩
    rw [List.chain'_cons]
    refine ⟨by decide, ?_⟩
    rw [List.chain'_cons]
    refine ⟨by decide, ?_⟩
    apply List.chain'_cons'.2
    refine ⟨?_, chainNoWiki_of_no_bracket _ hM⟩
    rintro y hy ⟨h1, _⟩
    exact absurd h1 (by decide)
  have hmd : mdScan ("[x](" ++ href ++ ")") = [href.data] := by
    unfold mdScan
    rw [hdata, List.length_cons]
    exact mdScanAux_single _ href.data hne hnp
  unfold extractLinks
  rw [hwiki, hmd]
  simp only [List.foldl_cons, List.foldl_nil]
  simp only [show (⟨href.data⟩ : String) = href from rfl]
  rw [jsTrim_eq_self href hws]
  by_cases h1 : jsStartsWith href "http://" = true
  · simp [h1]
  · by_cases h2 : jsStartsWith href "https://" = true
    · simp [h1, h2]
    · by_cases h3 : jsStartsWith href "#" = true
      · simp [h1, h2, h3]
      · by_cases ht : mdTargetOfHref href = ""
        · simp [h1, h2, h3, ht]
        · simp [h1, h2, h3, ht]

/-- Claim C5 counterexample: the extractor does not strip the `.md` extension
of `[x](foo.md#sec)` — it records target "foo.md", not "foo", because `.md`
is removed only when it is the final suffix of the URL, before the fragment
is split off. -/
theorem c5_counterexample :
    extractLinks "[x](foo.md#sec)" = [⟨"foo.md", .markdown⟩] ∧
      extractLinks "[x](foo.md#sec)" ≠ [⟨"foo", .markdown⟩] := by
  constructor
  · decide
  · decide

/-- Claim C5 as amended: an inline link `[Alias](url)` is recorded with
kind=markdown and target computed from the trimmed URL by stripping a final
`.md` suffix and then truncating at the first `#`; URLs beginning with
`http://`, `https://` or `#` are excluded, as is an empty processed target.
Because `.md` is stripped before the fragment is removed, `[x](foo.md#sec)`
records target "foo.md", while `[x](foo.md)` records "foo" and
`[x](foo#sec)` records "foo". -/
theorem c5_inline_link_extraction :
    (∀ href : String, href.data ≠ [] → '[' ∉ href.data → ')' ∉ href.data →
      (∀ c ∈ href.data, isWsChar c = false) →
      extractLinks ("[x](" ++ href ++ ")") =
        if jsStartsWith href "http://" || jsStartsWith href "https://"
            || jsStartsWith href "#" then []
        else if mdTargetOfHref href = "" then []
        else [⟨mdTargetOfHref href, .markdown⟩]) ∧
    mdTargetOfHref "foo.md#sec" = "foo.md" ∧
    mdTargetOfHref "foo.md" = "foo" ∧
    mdTargetOfHref "foo#sec" = "foo" ∧
    extractLinks "[x](foo.md#sec)" = [⟨"foo.md", .markdown⟩] ∧
    extractLinks "[x](foo.md)" = [⟨"foo", .markdown⟩] ∧
    extractLinks "[x](foo#sec)" = [⟨"foo", .markdown⟩] ∧
    extractLinks "[x]( foo.md )" = [⟨"foo", .markdown⟩] ∧
    extractLinks "[x](http://e.com/a.md)" = [] ∧
    extractLinks "[x](https://e.com)" = [] ∧
    extractLinks "[x](#anchor)" = [] ∧
    extractLinks "[x](.md)" = [] :=
  ⟨extractLinks_single_inline, by decide, by decide, by decide, by decide, by decide,
    by decide, by decide, by decide, by decide, by decide, by decide⟩

/-- Witness for the amended C5 at the concrete href "doc.md". -/
theorem c5_inline_link_extraction_witness :
    ("doc.md".data ≠ [] ∧ '[' ∉ "doc.md".data ∧ ')' ∉ "doc.md".data ∧
      (∀ c ∈ "doc.md".data, isWsChar c = false)) ∧
    extractLinks ("[x](" ++ "doc.md" ++ ")") =
      (if jsStartsWith "doc.md" "http://" || jsStartsWith "doc.md" "https://"
          || jsStartsWith "doc.md" "#" then []
        else if mdTargetOfHref "doc.md" = "" then []
        else [⟨mdTargetOfHref "doc.md", .markdown⟩]) :=
  ⟨⟨by decide, by decide, by decide, by decide⟩,
    c5_inline_link_extraction.1 "doc.md" (by decide) (by decide) (by decide) (by decide)⟩



/-! ### Graph traversal invariants -/

theorem foldl_inv {α β : Type} (P : β → Prop) (step : β → α → β)
    (hstep : ∀ acc x, P acc → P (step acc x)) :
    ∀ (l : List α) (acc : β), P acc → P (l.foldl step acc) := by
  intro l
  induction l with
  | nil => intro acc h; exact h
  | cons x xs ih => intro acc h; exact ih (step acc x) (hstep acc x h)

/-- The node-budget invariant preserved by every traversal state transform. -/
def NodesLe (m : Int) (st : GState) : Prop := (st.nodes.length : Int) ≤ m

theorem nodesLe_set_truncated (m : Int) (st : GState) (h : NodesLe m st) :
    NodesLe m { st with truncated := true } := h

theorem postStep_bound (m : Int) (X : GState × Bool) (f : GState → GState × Bool)
    (hX : NodesLe m X.1) (hf : ∀ st, NodesLe m st → NodesLe m (f st).1) :
    NodesLe m (match X with
      | (st, false) => (st, false)
      | (st, true) => f st).1 := by
  rcases X with ⟨st, b⟩
  cases b
  · exact hX
  · exact hf st hX

theorem postStep_bound' (m : Int) (X : GState × Bool) (f : GState → GState × Bool)
    (hX : NodesLe m X.1) (hf : ∀ st, NodesLe m st → NodesLe m (f st).1) :
    NodesLe m (match X with
      | (st, true) => f st
      | (st, false) => (st, false)).1 := by
  rcases X with ⟨st, b⟩
  cases b
  · exact hX
  · exact hf st hX

theorem addNode_bound (ctx : GCtx) (f : VFile) (st : GState)
    (h : NodesLe ctx.safeMaxNodes st) :
    NodesLe ctx.safeMaxNodes (addNode ctx f st).1 := by
  unfold addNode NodesLe
  split
  · exact h
  · rename_i hlt
    dsimp only
    split
    · exact h
    · unfold NodesLe at h
      simp only [List.length_append, List.length_cons, List.length_nil]
      push_cast
      omega

theorem outLoop_bound (ctx : GCtx) (recurse : String → GState → GState × Bool)
    (fileId : String)
    (hrec : ∀ p st, NodesLe ctx.safeMaxNodes st → NodesLe ctx.safeMaxNodes (recurse p st).1) :
    ∀ (links : List GLink) (st : GState), NodesLe ctx.safeMaxNodes st →
      NodesLe ctx.safeMaxNodes (outLoop ctx recurse fileId links st).1 := by
  intro links
  induction links with
  | nil => intro st h; exact h
  | cons link rest ih =>
    intro st h
    unfold outLoop
    split
    · exact ih st h
    · rename_i targetFile hmg
      rcases hadd : addNode ctx targetFile st with ⟨st2, b⟩
      have hb2 : NodesLe ctx.safeMaxNodes st2 := by
        have hh := addNode_bound ctx targetFile st h
        rw [hadd] at hh
        exact hh
      cases b
      · exact hb2
      · dsimp only
        have hb4 : NodesLe ctx.safeMaxNodes
            (if (st2.edges.any fun e =>
                  decide (e.source = fileId) &&
                    decide (e.target = stripMdSuffix targetFile.path)) = true then st2
              else { st2 with edges := st2.edges ++
                [⟨fileId, stripMdSuffix targetFile.path, link.type⟩] }) := by
          split
          · exact hb2
          · exact hb2
        apply postStep_bound' ctx.safeMaxNodes _ (fun st5 => outLoop ctx recurse fileId rest st5)
        · exact hrec _ _ hb4
        · intro st5 h5
          exact ih st5 h5

theorem inLoop_bound (ctx : GCtx) (recurse : String → GState → GState × Bool)
    (filePath fileId : String)
    (hrec : ∀ p st, NodesLe ctx.safeMaxNodes st → NodesLe ctx.safeMaxNodes (recurse p st).1) :
    ∀ (backlinks : List (VFile × LinkType)) (st : GState), NodesLe ctx.safeMaxNodes st →
      NodesLe ctx.safeMaxNodes (inLoop ctx recurse filePath fileId backlinks st).1 := by
  intro backlinks
  induction backlinks with
  | nil => intro st h; exact h
  | cons pair rest ih =>
    intro st h
    unfold inLoop
    split
    · exact ih st h
    · rename_i hne
      rcases hadd : addNode ctx pair.1 st with ⟨st2, b⟩
      have hb2 : NodesLe ctx.safeMaxNodes st2 := by
        have hh := addNode_bound ctx pair.1 st h
        rw [hadd] at hh
        exact hh
      cases b
      · exact hb2
      · dsimp only
        have hb4 : NodesLe ctx.safeMaxNodes
            (if (st2.edges.any fun e =>
                  decide (e.source = stripMdSuffix pair.1.path) &&
                    decide (e.target = fileId)) = true then st2
              else { st2 with edges := st2.edges ++
                [⟨stripMdSuffix pair.1.path, fileId, pair.2⟩] }) := by
          split
          · exact hb2
          · exact hb2
        apply postStep_bound' ctx.safeMaxNodes _
          (fun st5 => inLoop ctx recurse filePath fileId rest st5)
        · exact hrec _ _ hb4
        · intro st5 h5
          exact ih st5 h5

theorem traverse_bound (ctx : GCtx) :
    ∀ (fuel : Nat) (d : Int) (p : String) (st : GState),
      NodesLe ctx.safeMaxNodes st →
      NodesLe ctx.safeMaxNodes (traverse ctx fuel d p st).1 := by
  intro fuel
  induction fuel with
  | zero => intro d p st h; exact h
  | succ fuel ih =>
    intro d p st h
    unfold traverse
    split
    · exact h
    · split
      · exact h
      · split
        · exact h
        · split
          · exact h
          · split
            · exact h
            · rename_i file hmg
              dsimp only
              apply postStep_bound ctx.safeMaxNodes _
                (fun st2 =>
                  match (if (decide (ctx.direction = Direction.outDir) ||
                        decide (ctx.direction = Direction.both)) = true then
                      outLoop ctx (traverse ctx fuel (d + 1)) (stripMdSuffix file.path)
                        (graphExtractLinks file.content) st2
                    else (st2, true)) with
                  | (st3, false) => (st3, false)
                  | (st3, true) =>
                    if (decide (ctx.direction = Direction.inDir) ||
                        decide (ctx.direction = Direction.both)) = true then
                      inLoop ctx (traverse ctx fuel (d + 1)) file.path
                        (stripMdSuffix file.path) (blGet ctx.blIndex file.path) st3
                    else (st3, true))
              · exact addNode_bound ctx file { st with visited := st.visited ++ [p] } h
              · intro st2 h2
                apply postStep_bound ctx.safeMaxNodes _
                  (fun st3 =>
                    if (decide (ctx.direction = Direction.inDir) ||
                        decide (ctx.direction = Direction.both)) = true then
                      inLoop ctx (traverse ctx fuel (d + 1)) file.path
                        (stripMdSuffix file.path) (blGet ctx.blIndex file.path) st3
                    else (st3, true))
                · split
                  · exact outLoop_bound ctx _ _ (fun p' st' h' => ih (d + 1) p' st' h')
                      _ st2 h2
                  · exact h2
                · intro st3 h3
                  split
                  · exact inLoop_bound ctx _ _ _
                      (fun p' st' h' => ih (d + 1) p' st' h') _ st3 h3
                  · exact h3

theorem wholeVault_bound (ctx : GCtx) (files : List VFile) (lim : Int)
    (st0 : GState) (h0 : NodesLe ctx.safeMaxNodes st0) :
    NodesLe ctx.safeMaxNodes (wholeVault ctx files lim st0) := by
  unfold wholeVault
  apply foldl_inv (fun (acc : GState × Bool) => NodesLe ctx.safeMaxNodes acc.1)
  · intro acc file hacc
    rcases acc with ⟨st, b⟩
    cases b
    · exact hacc
    · dsimp only
      split
      · exact hacc
      · rcases hadd : addNode ctx file st with ⟨st2, b2⟩
        have hb2 : NodesLe ctx.safeMaxNodes st2 := by
          have hh := addNode_bound ctx file st hacc
          rw [hadd] at hh
          exact hh
        cases b2
        · exact hb2
        · dsimp only
          apply postStep_bound ctx.safeMaxNodes _
            (fun st6 => if st6.truncated = true then (st6, false) else (st6, true))
          · apply foldl_inv (fun (acc2 : GState × Bool) => NodesLe ctx.safeMaxNodes acc2.1)
            · intro acc2 lk hacc2
              rcases acc2 with ⟨st3, b3⟩
              cases b3
              · exact hacc2
              · dsimp only
                split
                · exact hacc2
                · rename_i tf hmg
                  rcases hadd2 : addNode ctx tf st3 with ⟨st4, b4⟩
                  have hb4 : NodesLe ctx.safeMaxNodes st4 := by
                    have hh := addNode_bound ctx tf st3 hacc2
                    rw [hadd2] at hh
                    exact hh
                  cases b4
                  · exact hb4
                  · exact hb4
            · exact hb2
          · intro st6 h6
            split
            · exact h6
            · exact h6
  · exact h0


theorem cycle_traverse_eval (s : Int) (h1 : 0 ≤ s) (h2 : s ≤ 50) :
    (traverse ⟨buildFileMap cycleFiles,
        buildBacklinksIndex cycleFiles (buildFileMap cycleFiles) Direction.both 1000,
        Direction.both, s, 1000, 5000⟩
      (s + 1).toNat 0 "a.md" ⟨[], [], [], false⟩).1.nodes
        = [⟨"a", "a", ""⟩, ⟨"b", "b", ""⟩] ∧
    (traverse ⟨buildFileMap cycleFiles,
        buildBacklinksIndex cycleFiles (buildFileMap cycleFiles) Direction.both 1000,
        Direction.both, s, 1000, 5000⟩
      (s + 1).toNat 0 "a.md" ⟨[], [], [], false⟩).1.edges
        = [⟨"a", "b", .wiki⟩, ⟨"b", "a", .wiki⟩] ∧
    (traverse ⟨buildFileMap cycleFiles,
        buildBacklinksIndex cycleFiles (buildFileMap cycleFiles) Direction.both 1000,
        Direction.both, s, 1000, 5000⟩
      (s + 1).toNat 0 "a.md" ⟨[], [], [], false⟩).1.truncated = false := by
  interval_cases s <;> exact ⟨by decide, by decide, by decide⟩

/-- Claim C4 (confirmed): on the two-note cyclic vault, a graph query from
"a.md" with direction=both and any finite requested depth terminates with
exactly the two reachable nodes, the two distinct edges (no duplicated
(source, target) pair), and truncated=false. -/
theorem c4_cycle_traversal (depth : Int) :
    graphQuery cycleFiles
        { fro := some "a.md", depth := some depth, direction := some .both } =
      ⟨[⟨"a", "a", ""⟩, ⟨"b", "b", ""⟩],
        [⟨"a", "b", .wiki⟩, ⟨"b", "a", .wiki⟩], false, 2, 2⟩ ∧
    (graphQuery cycleFiles
        { fro := some "a.md", depth := some depth, direction := some .both }).edges.Pairwise
      (fun e1 e2 => ¬(e1.source = e2.source ∧ e1.target = e2.target)) ∧
    ((graphQuery cycleFiles
        { fro := some "a.md", depth := some depth, direction := some .both }).nodes.map
      (fun n => n.id)) = (cycleFiles.map (fun f => stripMdSuffix f.path)) := by
  have hs1 : 0 ≤ safeDepthOf depth := by unfold safeDepthOf; omega
  have hs2 : safeDepthOf depth ≤ 50 := by unfold safeDepthOf; omega
  have hred : graphQuery cycleFiles
      { fro := some "a.md", depth := some depth, direction := some .both } =
      (let st := (traverse ⟨buildFileMap cycleFiles,
          buildBacklinksIndex cycleFiles (buildFileMap cycleFiles) Direction.both 1000,
          Direction.both, safeDepthOf depth, 1000, 5000⟩
          (safeDepthOf depth + 1).toNat 0 "a.md" ⟨[], [], [], false⟩).1
       ⟨st.nodes, st.edges, st.truncated, st.nodes.length, 2⟩) := rfl
  obtain ⟨hn, he, ht⟩ := cycle_traverse_eval (safeDepthOf depth) hs1 hs2
  rw [hred]
  dsimp only
  rw [hn, he, ht]
  refine ⟨rfl, by decide, rfl⟩

set_option maxRecDepth 1000000 in
/-- Claim C3 counterexample: on a 53-note chain, requesting depth=999999
(clamped to the hard cap 50) stops traversal at the depth cap — a reachable
note (n52) is missing from the result — yet `truncated` is false: the depth
hard cap being the limiting factor does not set the truncated flag. -/
theorem c3_counterexample :
    (fun r => (r.truncated, r.processedNodes, r.totalFiles,
        r.nodes.any (fun n => n.id == "n52")))
      (graphQuery chainFiles
        { fro := some "n0.md", depth := some 999999, direction := some .outDir })
      = (false, 52, 53, false) := by
  decide

set_option maxRecDepth 1000000 in
/-- Claim C3 as amended: caller-supplied depth, maxNodes and timeoutMs are
clamped into the hard-cap ranges [0,50], [1,10000] and [1000,30000] — huge
requests saturate at the caps — and no query ever yields more nodes than the
node hard cap; `truncated` is set when the node cap is the limiting factor,
but reaching the depth cap stops expansion without setting `truncated`. -/
theorem c3_cap_clamping :
    (∀ d m t : Int,
      0 ≤ safeDepthOf d ∧ safeDepthOf d ≤ 50 ∧
      1 ≤ safeMaxNodesOf m ∧ safeMaxNodesOf m ≤ 10000 ∧
      1000 ≤ safeTimeoutOf t ∧ safeTimeoutOf t ≤ 30000) ∧
    (safeDepthOf 999999 = 50 ∧ safeMaxNodesOf 999999999 = 10000 ∧
      safeTimeoutOf 999999999 = 30000) ∧
    (∀ (files : List VFile) (req : GraphReq),
      ((graphQuery files req).processedNodes : Int) ≤ 10000) ∧
    ((graphQuery cycleFiles { fro := some "a.md", maxNodes := some 1 }).truncated = true ∧
      (graphQuery cycleFiles { fro := some "a.md", maxNodes := some 1 }).processedNodes = 1) ∧
    ((fun r => (r.truncated, r.processedNodes, r.totalFiles,
        r.nodes.any (fun n => n.id == "n52")))
      (graphQuery chainFiles
        { fro := some "n0.md", depth := some 999999, direction := some .outDir })
      = (false, 52, 53, false)) := by
  refine ⟨?_, ⟨by decide, by decide, by decide⟩, ?_, ⟨by decide, by decide⟩, by decide⟩
  · intro d m t
    unfold safeDepthOf safeMaxNodesOf safeTimeoutOf
    omega
  · intro files req
    have hcap : safeMaxNodesOf (req.maxNodes.getD 1000) ≤ 10000 := by
      unfold safeMaxNodesOf; omega
    have hcap0 : 0 ≤ safeMaxNodesOf (req.maxNodes.getD 1000) := by
      unfold safeMaxNodesOf; omega
    unfold graphQuery
    cases hfro : req.fro with
    | some f =>
      dsimp only
      have hb := traverse_bound ⟨buildFileMap files,
          buildBacklinksIndex files (buildFileMap files) (req.direction.getD .both)
            (safeMaxNodesOf (req.maxNodes.getD 1000)),
          req.direction.getD .both, safeDepthOf (req.depth.getD 1),
          safeMaxNodesOf (req.maxNodes.getD 1000),
          safeTimeoutOf (req.timeout.getD 5000)⟩
        (safeDepthOf (req.depth.getD 1) + 1).toNat 0 f ⟨[], [], [], false⟩
        (by unfold NodesLe; simp; exact hcap0)
      unfold NodesLe at hb
      exact le_trans hb hcap
    | none =>
      dsimp only
      have hwv := wholeVault_bound ⟨buildFileMap files, [],
          req.direction.getD .both, safeDepthOf (req.depth.getD 1),
          safeMaxNodesOf (req.maxNodes.getD 1000),
          safeTimeoutOf (req.timeout.getD 5000)⟩
        files (min 100 (safeMaxNodesOf (req.maxNodes.getD 1000)))
        ⟨[], [], [], false⟩ (by unfold NodesLe; simp; exact hcap0)
      unfold NodesLe at hwv
      split
      · exact le_trans hwv hcap
      · exact le_trans hwv hcap


/-! ### Sync engine lemmas -/

theorem foldl_proj_const {α β γ : Type} (g : β → α → β) (proj : β → γ)
    (hg : ∀ b a, proj (g b a) = proj b) :
    ∀ (l : List α) (b : β), proj (l.foldl g b) = proj b := by
  intro l
  induction l with
  | nil => intro b; rfl
  | cons x xs ih => intro b; rw [List.foldl_cons, ih, hg]

theorem insertTagRow_files (db : Db) (t : TagRow) : (insertTagRow db t).files = db.files := by
  unfold insertTagRow
  split <;> rfl

theorem insertLinkRow_files (db : Db) (l : LinkRow) :
    (insertLinkRow db l).files = db.files := by
  unfold insertLinkRow
  split <;> rfl

theorem insertTagRow_fts (db : Db) (t : TagRow) : (insertTagRow db t).fts = db.fts := by
  unfold insertTagRow
  split <;> rfl

theorem insertLinkRow_fts (db : Db) (l : LinkRow) :
    (insertLinkRow db l).fts = db.fts := by
  unfold insertLinkRow
  split <;> rfl

theorem processFile_none (db : Db) (f : DiskFile) (h : f.raw = none) :
    processFile db f = db := by
  unfold processFile
  rw [h]

theorem processFile_files (db : Db) (f : DiskFile) (parsed : ParsedFile)
    (h : f.raw = some parsed) :
    (processFile db f).files
      = db.files.filter (fun r => r.path != f.path) ++ [fileRowOf f parsed] := by
  unfold processFile
  rw [h]
  dsimp only
  rw [show ∀ db2 : Db, (insertFtsRow db2 ⟨f.path, titleOf f parsed, parsed.content⟩).files
      = db2.files from fun db2 => rfl]
  rw [show ∀ db2 : Db, (deleteFtsFor db2 f.path).files = db2.files from fun db2 => rfl]
  rw [foldl_proj_const _ Db.files (fun b a => insertLinkRow_files b _)]
  rw [show ∀ db2 : Db, (deleteLinksFor db2 f.path).files = db2.files from fun db2 => rfl]
  rw [foldl_proj_const _ Db.files (fun b a => insertTagRow_files b _)]
  rfl

theorem processFile_fts_other (db : Db) (f : DiskFile) (p : String) (hne : f.path ≠ p) :
    (processFile db f).fts.filter (fun r => r.path == p)
      = db.fts.filter (fun r => r.path == p) := by
  cases hr : f.raw with
  | none => rw [processFile_none db f hr]
  | some parsed =>
    unfold processFile
    rw [hr]
    dsimp only
    rw [show ∀ db2 : Db, (insertFtsRow db2 ⟨f.path, titleOf f parsed, parsed.content⟩).fts
        = db2.fts ++ [⟨f.path, titleOf f parsed, parsed.content⟩] from fun db2 => rfl]
    rw [show ∀ db2 : Db, (deleteFtsFor db2 f.path).fts
        = db2.fts.filter (fun r => r.path != f.path) from fun db2 => rfl]
    rw [foldl_proj_const _ Db.fts (fun b a => insertLinkRow_fts b _)]
    rw [show ∀ db2 : Db, (deleteLinksFor db2 f.path).fts = db2.fts from fun db2 => rfl]
    rw [foldl_proj_const _ Db.fts (fun b a => insertTagRow_fts b _)]
    rw [show (deleteTagsFor (insertFileRow db (fileRowOf f parsed)) f.path).fts = db.fts
        from rfl]
    rw [List.filter_append]
    rw [show List.filter (fun r => r.path == p)
          [(⟨f.path, titleOf f parsed, parsed.content⟩ : FtsRow)] = [] from by
      rw [List.filter_cons_of_neg (by simp [hne])]
      rfl]
    rw [List.append_nil, List.filter_filter]
    apply List.filter_congr
    intro r hr2
    by_cases hp : r.path = p
    · have hpf : p ≠ f.path := Ne.symm hne
      simp [hp, hpf]
    · simp [hp]

theorem find?_filter_of_keep {α : Type} (pr keep : α → Bool) :
    ∀ l : List α, (∀ a ∈ l, pr a = true → keep a = true) →
      (l.filter keep).find? pr = l.find? pr := by
  intro l
  induction l with
  | nil => intro _; rfl
  | cons a rest ih =>
    intro h
    by_cases hk : keep a = true
    · rw [List.filter_cons_of_pos hk]
      by_cases hp : pr a = true
      · rw [List.find?_cons_of_pos _ hp, List.find?_cons_of_pos _ hp]
      · rw [Bool.not_eq_true] at hp
        rw [List.find?_cons_of_neg _ (by rw [hp]; simp),
          List.find?_cons_of_neg _ (by rw [hp]; simp)]
        exact ih fun a' ha' => h a' (List.mem_cons_of_mem _ ha')
    · rw [Bool.not_eq_true] at hk
      rw [List.filter_cons_of_neg (by rw [hk]; simp)]
      have hpa : pr a = false := by
        by_contra hc
        rw [Bool.not_eq_false] at hc
        rw [h a (List.mem_cons_self a rest) hc] at hk
        cases hk
      rw [List.find?_cons_of_neg _ (by rw [hpa]; simp)]
      exact ih fun a' ha' => h a' (List.mem_cons_of_mem _ ha')

theorem cachedMtime_append (A : List FileRow) (row : FileRow) (p : String) :
    cachedMtime (A ++ [row]) p
      = if row.path = p then some row.mtime else cachedMtime A p := by
  unfold cachedMtime
  rw [List.reverse_append]
  by_cases h : row.path = p
  · rw [if_pos h]
    rw [show ([row].reverse ++ A.reverse).find? (fun r => r.path = p)
        = some row from by
      simp only [List.reverse_cons, List.reverse_nil, List.nil_append, List.cons_append]
      rw [List.find?_cons_of_pos _ (by simp [h])]]
    rfl
  · rw [if_neg h]
    simp only [List.reverse_cons, List.reverse_nil, List.nil_append, List.cons_append]
    rw [List.find?_cons_of_neg _ (by simp [h])]

theorem cachedMtime_filter_ne (A : List FileRow) (x p : String) (h : x ≠ p) :
    cachedMtime (A.filter (fun r => r.path != x)) p = cachedMtime A p := by
  unfold cachedMtime
  rw [← List.filter_reverse]
  rw [find?_filter_of_keep]
  intro r hr hp
  simp only [decide_eq_true_eq] at hp
  simp only [bne_iff_ne, ne_eq, decide_eq_true_eq]
  rw [hp]
  exact fun he => h he.symm


theorem processFile_cm_other (db : Db) (f : DiskFile) (p : String) (hne : f.path ≠ p) :
    cachedMtime (processFile db f).files p = cachedMtime db.files p := by
  cases hr : f.raw with
  | none => rw [processFile_none db f hr]
  | some parsed =>
    rw [processFile_files db f parsed hr, cachedMtime_append]
    rw [if_neg (by exact fun he => hne (by simpa [fileRowOf] using he))]
    exact cachedMtime_filter_ne db.files f.path p hne

theorem processFile_cm_self (db : Db) (f : DiskFile) (parsed : ParsedFile)
    (hr : f.raw = some parsed) :
    cachedMtime (processFile db f).files f.path = some f.mtime := by
  rw [processFile_files db f parsed hr, cachedMtime_append]
  rw [if_pos (show (fileRowOf f parsed).path = f.path from rfl)]
  rfl

theorem syncStep_db_unreadable (db0 : Db) (acc : Db × SyncStats) (f : DiskFile)
    (h : f.raw = none) : (syncStep db0 acc f).1 = acc.1 := by
  unfold syncStep
  cases hc : cachedMtime db0.files f.path with
  | none =>
    dsimp only
    exact processFile_none acc.1 f h
  | some m =>
    dsimp only
    by_cases hm : m ≠ f.mtime
    · rw [if_pos hm]
      exact processFile_none acc.1 f h
    · rw [if_neg hm]

theorem syncStep_cm_other (db0 : Db) (acc : Db × SyncStats) (f : DiskFile)
    (p : String) (hne : f.path ≠ p) :
    cachedMtime (syncStep db0 acc f).1.files p = cachedMtime acc.1.files p := by
  unfold syncStep
  cases hc : cachedMtime db0.files f.path with
  | none =>
    dsimp only
    exact processFile_cm_other acc.1 f p hne
  | some m =>
    dsimp only
    by_cases hm : m ≠ f.mtime
    · rw [if_pos hm]
      exact processFile_cm_other acc.1 f p hne
    · rw [if_neg hm]

theorem syncStep_mem (db0 : Db) (acc : Db × SyncStats) (f : DiskFile) (r : FileRow)
    (h : r ∈ (syncStep db0 acc f).1.files) : r ∈ acc.1.files ∨ r.path = f.path := by
  have hpf : r ∈ (processFile acc.1 f).files → r ∈ acc.1.files ∨ r.path = f.path := by
    intro hm
    cases hr : f.raw with
    | none => rw [processFile_none acc.1 f hr] at hm; exact Or.inl hm
    | some parsed =>
      rw [processFile_files acc.1 f parsed hr] at hm
      rcases List.mem_append.1 hm with hm | hm
      · exact Or.inl (List.mem_filter.1 hm).1
      · rw [List.mem_singleton.1 hm]
        exact Or.inr rfl
  unfold syncStep at h
  cases hc : cachedMtime db0.files f.path with
  | none =>
    rw [hc] at h
    dsimp only at h
    exact hpf h
  | some m =>
    rw [hc] at h
    dsimp only at h
    by_cases hm : m ≠ f.mtime
    · rw [if_pos hm] at h
      exact hpf h
    · rw [if_neg hm] at h
      exact Or.inl h

theorem phase1_cm_untouched (db0 : Db) :
    ∀ (disk : List DiskFile) (acc : Db × SyncStats) (p : String),
      (∀ f ∈ disk, f.path = p → f.raw = none) →
      cachedMtime ((disk.foldl (syncStep db0) acc).1).files p
        = cachedMtime acc.1.files p := by
  intro disk
  induction disk with
  | nil => intro acc p _; rfl
  | cons g rest ih =>
    intro acc p h
    rw [List.foldl_cons]
    rw [ih _ p (fun f hf => h f (List.mem_cons_of_mem g hf))]
    by_cases hgp : g.path = p
    · rw [show (syncStep db0 acc g).1 = acc.1 from
        syncStep_db_unreadable db0 acc g (h g (List.mem_cons_self g rest) hgp)]
    · exact syncStep_cm_other db0 acc g p hgp

theorem phase1_cm_readable (db0 : Db) :
    ∀ (disk : List DiskFile) (acc : Db × SyncStats) (f : DiskFile),
      f ∈ disk → (disk.map DiskFile.path).Nodup → f.raw.isSome = true →
      cachedMtime acc.1.files f.path = cachedMtime db0.files f.path →
      cachedMtime ((disk.foldl (syncStep db0) acc).1).files f.path = some f.mtime := by
  intro disk
  induction disk with
  | nil => intro acc f hf; cases hf
  | cons g rest ih =>
    intro acc f hf hnd hsome hagree
    rw [List.map_cons, List.nodup_cons] at hnd
    rcases List.mem_cons.1 hf with rfl | hfr
    · rw [List.foldl_cons]
      have hrest : ∀ h2 ∈ rest, h2.path = f.path → h2.raw = none := by
        intro h2 hh2 hp2
        exact absurd (hp2 ▸ List.mem_map_of_mem DiskFile.path hh2) hnd.1
      rw [phase1_cm_untouched db0 rest _ f.path hrest]
      obtain ⟨parsed, hparsed⟩ := Option.isSome_iff_exists.1 hsome
      unfold syncStep
      rw [show cachedMtime db0.files f.path
          = cachedMtime db0.files f.path from rfl]
      cases hc : cachedMtime db0.files f.path with
      | none =>
        dsimp only
        exact processFile_cm_self acc.1 f parsed hparsed
      | some m =>
        dsimp only
        by_cases hm : m ≠ f.mtime
        · rw [if_pos hm]
          exact processFile_cm_self acc.1 f parsed hparsed
        · rw [if_neg hm]
          push_neg at hm
          rw [hagree, hc, hm]
    · rw [List.foldl_cons]
      have hgf : g.path ≠ f.path := by
        intro he
        exact hnd.1 (he ▸ List.mem_map_of_mem DiskFile.path hfr)
      apply ih _ f hfr hnd.2 hsome
      rw [syncStep_cm_other db0 acc g f.path hgf]
      exact hagree

theorem phase1_mem (db0 : Db) :
    ∀ (disk : List DiskFile) (acc : Db × SyncStats) (r : FileRow),
      r ∈ ((disk.foldl (syncStep db0) acc).1).files →
      r ∈ acc.1.files ∨ ∃ f ∈ disk, r.path = f.path := by
  intro disk
  induction disk with
  | nil => intro acc r h; exact Or.inl h
  | cons g rest ih =>
    intro acc r h
    rw [List.foldl_cons] at h
    rcases ih _ r h with hacc | ⟨f, hf, hp⟩
    · rcases syncStep_mem db0 acc g r hacc with hm | hm
      · exact Or.inl hm
      · exact Or.inr ⟨g, List.mem_cons_self g rest, hm⟩
    · exact Or.inr ⟨f, List.mem_cons_of_mem g hf, hp⟩

theorem phase1_stats (db0 : Db) :
    ∀ (disk : List DiskFile) (acc : Db × SyncStats),
      ((disk.foldl (syncStep db0) acc).2).added
          = acc.2.added + (disk.filter
              (fun g => (cachedMtime db0.files g.path).isNone)).length ∧
      ((disk.foldl (syncStep db0) acc).2).modified
          = acc.2.modified + (disk.filter
              (fun g => match cachedMtime db0.files g.path with
                | some m => decide (m ≠ g.mtime)
                | none => false)).length ∧
      ((disk.foldl (syncStep db0) acc).2).deleted = acc.2.deleted := by
  intro disk
  induction disk with
  | nil => intro acc; exact ⟨rfl, rfl, rfl⟩
  | cons g rest ih =>
    intro acc
    rw [List.foldl_cons]
    obtain ⟨iha, ihm, ihd⟩ := ih (syncStep db0 acc g)
    refine ⟨?_, ?_, ?_⟩
    · rw [iha]
      unfold syncStep
      cases hc : cachedMtime db0.files g.path with
      | none =>
        dsimp only
        rw [List.filter_cons_of_pos (by rw [hc]; rfl)]
        simp only [List.length_cons]
        omega
      | some m =>
        dsimp only
        rw [List.filter_cons_of_neg (by rw [hc]; simp)]
        by_cases hm : m ≠ g.mtime
        · rw [if_pos hm]
        · rw [if_neg hm]
    · rw [ihm]
      unfold syncStep
      cases hc : cachedMtime db0.files g.path with
      | none =>
        dsimp only
        rw [List.filter_cons_of_neg (by rw [hc]; simp)]
      | some m =>
        dsimp only
        by_cases hm : m ≠ g.mtime
        · rw [if_pos hm, List.filter_cons_of_pos (by rw [hc]; simpa using hm)]
          simp only [List.length_cons]
          omega
        · rw [if_neg hm, List.filter_cons_of_neg (by rw [hc]; simpa using hm)]
    · rw [ihd]
      unfold syncStep
      cases hc : cachedMtime db0.files g.path with
      | none => rfl
      | some m =>
        dsimp only
        by_cases hm : m ≠ g.mtime
        · rw [if_pos hm]
        · rw [if_neg hm]

theorem phase1_db_unchanged (dbD : Db) :
    ∀ (disk : List DiskFile) (acc : Db × SyncStats),
      (∀ f ∈ disk, cachedMtime dbD.files f.path = some f.mtime) →
      ((disk.foldl (syncStep dbD) acc).1) = acc.1 := by
  intro disk
  induction disk with
  | nil => intro acc _; rfl
  | cons g rest ih =>
    intro acc h
    rw [List.foldl_cons]
    rw [ih _ (fun f hf => h f (List.mem_cons_of_mem g hf))]
    unfold syncStep
    rw [h g (List.mem_cons_self g rest)]
    dsimp only
    rw [if_neg (by push_neg; rfl)]

theorem phase1_fts_untouched (db0 : Db) :
    ∀ (disk : List DiskFile) (acc : Db × SyncStats) (p : String),
      (∀ f ∈ disk, f.path = p → f.raw = none) →
      ((disk.foldl (syncStep db0) acc).1).fts.filter (fun r => r.path == p)
        = acc.1.fts.filter (fun r => r.path == p) := by
  intro disk
  induction disk with
  | nil => intro acc p _; rfl
  | cons g rest ih =>
    intro acc p h
    rw [List.foldl_cons]
    rw [ih _ p (fun f hf => h f (List.mem_cons_of_mem g hf))]
    by_cases hgp : g.path = p
    · rw [show (syncStep db0 acc g).1 = acc.1 from
        syncStep_db_unreadable db0 acc g (h g (List.mem_cons_self g rest) hgp)]
    · unfold syncStep
      cases hc : cachedMtime db0.files g.path with
      | none =>
        dsimp only
        exact processFile_fts_other acc.1 g p hgp
      | some m =>
        dsimp only
        by_cases hm : m ≠ g.mtime
        · rw [if_pos hm]
          exact processFile_fts_other acc.1 g p hgp
        · rw [if_neg hm]


theorem syncStep2_pos (disk : List DiskFile) (acc : Db × SyncStats) (c : String × Int)
    (h : disk.any (fun f => f.path = c.1) = true) : syncStep2 disk acc c = acc := by
  unfold syncStep2
  rw [if_pos h]

theorem phase2_noop (disk : List DiskFile) :
    ∀ (cached : List (String × Int)) (acc : Db × SyncStats),
      (∀ c ∈ cached, disk.any (fun f => f.path = c.1) = true) →
      syncPhase2 disk acc cached = acc := by
  intro cached
  induction cached with
  | nil => intro acc _; rfl
  | cons c rest ih =>
    intro acc h
    unfold syncPhase2
    rw [List.foldl_cons, syncStep2_pos disk acc c (h c (List.mem_cons_self c rest))]
    exact ih acc fun c' hc' => h c' (List.mem_cons_of_mem c hc')

theorem syncStep2_stats (disk : List DiskFile) (acc : Db × SyncStats) (c : String × Int) :
    (syncStep2 disk acc c).2.added = acc.2.added ∧
    (syncStep2 disk acc c).2.modified = acc.2.modified ∧
    (syncStep2 disk acc c).2.unchanged = acc.2.unchanged := by
  unfold syncStep2
  split
  · exact ⟨rfl, rfl, rfl⟩
  · exact ⟨rfl, rfl, rfl⟩

theorem phase2_stats (disk : List DiskFile) :
    ∀ (cached : List (String × Int)) (acc : Db × SyncStats),
      (syncPhase2 disk acc cached).2.added = acc.2.added ∧
      (syncPhase2 disk acc cached).2.modified = acc.2.modified ∧
      (syncPhase2 disk acc cached).2.unchanged = acc.2.unchanged := by
  intro cached
  induction cached with
  | nil => intro acc; exact ⟨rfl, rfl, rfl⟩
  | cons c rest ih =>
    intro acc
    unfold syncPhase2
    rw [List.foldl_cons]
    obtain ⟨ia, im, iu⟩ := ih (syncStep2 disk acc c)
    obtain ⟨sa, sm, su⟩ := syncStep2_stats disk acc c
    exact ⟨by rw [← sa]; exact ia, by rw [← sm]; exact im, by rw [← su]; exact iu⟩

theorem syncStep2_files_delete (disk : List DiskFile) (acc : Db × SyncStats)
    (c : String × Int) (h : disk.any (fun f => f.path = c.1) = false) :
    (syncStep2 disk acc c).1.files = acc.1.files.filter (fun r => r.path != c.1) := by
  unfold syncStep2
  rw [if_neg (by rw [h]; simp)]
  rfl

theorem phase2_cm_preserve (disk : List DiskFile) :
    ∀ (cached : List (String × Int)) (acc : Db × SyncStats) (p : String),
      disk.any (fun f => f.path = p) = true →
      cachedMtime (syncPhase2 disk acc cached).1.files p = cachedMtime acc.1.files p := by
  intro cached
  induction cached with
  | nil => intro acc p _; rfl
  | cons c rest ih =>
    intro acc p hp
    unfold syncPhase2
    rw [List.foldl_cons]
    rw [show (rest.foldl (syncStep2 disk) (syncStep2 disk acc c))
        = syncPhase2 disk (syncStep2 disk acc c) rest from rfl]
    rw [ih _ p hp]
    by_cases hany : disk.any (fun f => f.path = c.1) = true
    · rw [syncStep2_pos disk acc c hany]
    · rw [Bool.not_eq_true] at hany
      have hne : c.1 ≠ p := by
        intro he
        rw [he] at hany
        rw [hany] at hp
        cases hp
      unfold cachedMtime
      rw [syncStep2_files_delete disk acc c hany]
      rw [← List.filter_reverse]
      rw [find?_filter_of_keep]
      intro r hr hpr
      simp only [decide_eq_true_eq] at hpr
      simp only [bne_iff_ne, ne_eq, decide_eq_true_eq]
      rw [hpr]
      exact fun he => hne he.symm

theorem syncStep2_fts (disk : List DiskFile) (acc : Db × SyncStats)
    (c : String × Int) (p : String) (hne : c.1 ≠ p) :
    (syncStep2 disk acc c).1.fts.filter (fun r => r.path == p)
      = acc.1.fts.filter (fun r => r.path == p) := by
  unfold syncStep2
  split
  · rfl
  · dsimp only
    rw [show (deleteFileRow (deleteFtsFor (deleteLinksFor (deleteTagsFor acc.1 c.1) c.1) c.1) c.1).fts
        = acc.1.fts.filter (fun r => r.path != c.1) from rfl]
    rw [List.filter_filter]
    apply List.filter_congr
    intro r hr
    by_cases hp : r.path = p
    · have hpc : p ≠ c.1 := Ne.symm hne
      simp [hp, hpc]
    · simp [hp]

theorem phase2_fts_preserve (disk : List DiskFile) :
    ∀ (cached : List (String × Int)) (acc : Db × SyncStats) (p : String),
      disk.any (fun f => f.path = p) = true →
      (syncPhase2 disk acc cached).1.fts.filter (fun r => r.path == p)
        = acc.1.fts.filter (fun r => r.path == p) := by
  intro cached
  induction cached with
  | nil => intro acc p _; rfl
  | cons c rest ih =>
    intro acc p hp
    unfold syncPhase2
    rw [List.foldl_cons]
    rw [show (rest.foldl (syncStep2 disk) (syncStep2 disk acc c))
        = syncPhase2 disk (syncStep2 disk acc c) rest from rfl]
    rw [ih _ p hp]
    by_cases hany : disk.any (fun f => f.path = c.1) = true
    · rw [syncStep2_pos disk acc c hany]
    · rw [Bool.not_eq_true] at hany
      have hne : c.1 ≠ p := by
        intro he
        rw [he] at hany
        rw [hany] at hp
        cases hp
      exact syncStep2_fts disk acc c p hne

theorem syncStep2_subset (disk : List DiskFile) (acc : Db × SyncStats)
    (c : String × Int) (r : FileRow) (h : r ∈ (syncStep2 disk acc c).1.files) :
    r ∈ acc.1.files := by
  unfold syncStep2 at h
  split at h
  · exact h
  · exact (List.mem_filter.1 h).1

theorem phase2_subset (disk : List DiskFile) :
    ∀ (cached : List (String × Int)) (acc : Db × SyncStats) (r : FileRow),
      r ∈ (syncPhase2 disk acc cached).1.files → r ∈ acc.1.files := by
  intro cached
  induction cached with
  | nil => intro acc r h; exact h
  | cons c rest ih =>
    intro acc r h
    unfold syncPhase2 at h
    rw [List.foldl_cons] at h
    exact syncStep2_subset disk acc c r (ih (syncStep2 disk acc c) r h)

theorem phase2_removed (disk : List DiskFile) :
    ∀ (cached : List (String × Int)) (acc : Db × SyncStats) (c : String × Int),
      c ∈ cached → disk.any (fun f => f.path = c.1) = false →
      ∀ r ∈ (syncPhase2 disk acc cached).1.files, r.path ≠ c.1 := by
  intro cached
  induction cached with
  | nil => intro acc c hc; cases hc
  | cons c0 rest ih =>
    intro acc c hc hany r hr
    unfold syncPhase2 at hr
    rw [List.foldl_cons] at hr
    by_cases he : c0.1 = c.1
    · have hr2 : r ∈ (syncStep2 disk acc c0).1.files :=
        phase2_subset disk rest (syncStep2 disk acc c0) r hr
      rw [syncStep2_files_delete disk acc c0 (by rw [he]; exact hany)] at hr2
      have := (List.mem_filter.1 hr2).2
      simp only [bne_iff_ne, ne_eq, decide_eq_true_eq] at this
      rw [← he]
      exact this
    · rcases List.mem_cons.1 hc with rfl | hcr
      · exact absurd rfl he
      · exact ih (syncStep2 disk acc c0) c hcr hany r hr


theorem sync_cm_readable (db : Db) (disk : List DiskFile) (f : DiskFile)
    (hf : f ∈ disk) (HD : (disk.map DiskFile.path).Nodup)
    (hsome : f.raw.isSome = true) :
    cachedMtime (syncCache db disk).1.files f.path = some f.mtime := by
  have hany : disk.any (fun g => g.path = f.path) = true :=
    List.any_eq_true.2 ⟨f, hf, by simp⟩
  show cachedMtime (syncPhase2 disk (syncPhase1 db disk)
      (db.files.map (fun r => (r.path, r.mtime)))).1.files f.path = some f.mtime
  rw [phase2_cm_preserve disk _ _ f.path hany]
  exact phase1_cm_readable db disk (db, ⟨0, 0, 0, 0, 0⟩) f hf HD hsome rfl

theorem sync_files_on_disk (db : Db) (disk : List DiskFile) :
    ∀ r ∈ (syncCache db disk).1.files,
      disk.any (fun g => g.path = r.path) = true := by
  intro r hr
  by_contra hc
  rw [Bool.not_eq_true] at hc
  have hr' : r ∈ (syncPhase2 disk (syncPhase1 db disk)
      (db.files.map (fun r2 => (r2.path, r2.mtime)))).1.files := hr
  have hr1 : r ∈ (syncPhase1 db disk).1.files := phase2_subset disk _ _ r hr'
  rcases phase1_mem db disk _ r hr1 with hdb | ⟨f, hf, hp⟩
  · have hpair : (r.path, r.mtime) ∈ db.files.map (fun r2 => (r2.path, r2.mtime)) :=
      List.mem_map_of_mem _ hdb
    exact phase2_removed disk _ (syncPhase1 db disk) (r.path, r.mtime) hpair hc r hr' rfl
  · have : disk.any (fun g => g.path = r.path) = true :=
      List.any_eq_true.2 ⟨f, hf, by simp [hp]⟩
    rw [hc] at this
    cases this

theorem sync_added_count (db : Db) (disk : List DiskFile) :
    (syncCache db disk).2.added
      = (disk.filter (fun g => (cachedMtime db.files g.path).isNone)).length := by
  show (syncPhase2 disk (syncPhase1 db disk)
      (db.files.map (fun r => (r.path, r.mtime)))).2.added = _
  rw [(phase2_stats disk _ _).1]
  have := (phase1_stats db disk (db, ⟨0, 0, 0, 0, 0⟩)).1
  rw [show syncPhase1 db disk
      = disk.foldl (syncStep db) (db, ⟨0, 0, 0, 0, 0⟩) from rfl, this]
  simp

theorem sync_modified_count (db : Db) (disk : List DiskFile) :
    (syncCache db disk).2.modified
      = (disk.filter (fun g => match cachedMtime db.files g.path with
          | some m => decide (m ≠ g.mtime)
          | none => false)).length := by
  show (syncPhase2 disk (syncPhase1 db disk)
      (db.files.map (fun r => (r.path, r.mtime)))).2.modified = _
  rw [(phase2_stats disk _ _).2.1]
  have := (phase1_stats db disk (db, ⟨0, 0, 0, 0, 0⟩)).2.1
  rw [show syncPhase1 db disk
      = disk.foldl (syncStep db) (db, ⟨0, 0, 0, 0, 0⟩) from rfl, this]
  simp

/-- Claim C1 as amended: when every disk file can be read and disk paths are
distinct, running sync() twice with no disk change in between yields
added=0, modified=0, deleted=0 on the second call and leaves the database —
hence every query result — identical. -/
theorem c1_idempotent_sync (db0 : Db) (disk : List DiskFile)
    (HR : ∀ f ∈ disk, f.raw.isSome = true)
    (HD : (disk.map DiskFile.path).Nodup) :
    (syncCache (syncCache db0 disk).1 disk).2.added = 0 ∧
    (syncCache (syncCache db0 disk).1 disk).2.modified = 0 ∧
    (syncCache (syncCache db0 disk).1 disk).2.deleted = 0 ∧
    (syncCache (syncCache db0 disk).1 disk).1 = (syncCache db0 disk).1 ∧
    (∀ opts, listNotes (syncCache (syncCache db0 disk).1 disk).1 opts
        = listNotes (syncCache db0 disk).1 opts) ∧
    (∀ q opts, searchContent (syncCache (syncCache db0 disk).1 disk).1 q opts
        = searchContent (syncCache db0 disk).1 q opts) ∧
    getAllTags (syncCache (syncCache db0 disk).1 disk).1
        = getAllTags (syncCache db0 disk).1 ∧
    (∀ tag opts, getNotesByTag (syncCache (syncCache db0 disk).1 disk).1 tag opts
        = getNotesByTag (syncCache db0 disk).1 tag opts) ∧
    (∀ p, getOutlinks (syncCache (syncCache db0 disk).1 disk).1 p
        = getOutlinks (syncCache db0 disk).1 p) ∧
    (∀ p, getBacklinks (syncCache (syncCache db0 disk).1 disk).1 p
        = getBacklinks (syncCache db0 disk).1 p) ∧
    (∀ p, getFrontmatter (syncCache (syncCache db0 disk).1 disk).1 p
        = getFrontmatter (syncCache db0 disk).1 p) ∧
    (∀ p, getNoteInfo (syncCache (syncCache db0 disk).1 disk).1 p
        = getNoteInfo (syncCache db0 disk).1 p) := by
  have F1 : ∀ f ∈ disk, cachedMtime (syncCache db0 disk).1.files f.path = some f.mtime :=
    fun f hf => sync_cm_readable db0 disk f hf HD (HR f hf)
  have F2 : ∀ r ∈ (syncCache db0 disk).1.files,
      disk.any (fun g => g.path = r.path) = true := sync_files_on_disk db0 disk
  have hadded : (syncCache (syncCache db0 disk).1 disk).2.added = 0 := by
    rw [sync_added_count]
    rw [show disk.filter (fun g =>
        (cachedMtime (syncCache db0 disk).1.files g.path).isNone) = [] from by
      rw [List.filter_eq_nil_iff]
      intro f hf
      rw [F1 f hf]
      simp]
    rfl
  have hmod : (syncCache (syncCache db0 disk).1 disk).2.modified = 0 := by
    rw [sync_modified_count]
    rw [show disk.filter (fun g =>
        match cachedMtime (syncCache db0 disk).1.files g.path with
        | some m => decide (m ≠ g.mtime)
        | none => false) = [] from by
      rw [List.filter_eq_nil_iff]
      intro f hf
      rw [F1 f hf]
      simp]
    rfl
  have hph1 : (syncPhase1 (syncCache db0 disk).1 disk).1 = (syncCache db0 disk).1 :=
    phase1_db_unchanged (syncCache db0 disk).1 disk ((syncCache db0 disk).1, ⟨0, 0, 0, 0, 0⟩) F1
  have hnoop : syncPhase2 disk (syncPhase1 (syncCache db0 disk).1 disk)
      ((syncCache db0 disk).1.files.map (fun r => (r.path, r.mtime)))
      = syncPhase1 (syncCache db0 disk).1 disk := by
    apply phase2_noop
    intro c hc
    rcases List.mem_map.1 hc with ⟨r, hr, rfl⟩
    exact F2 r hr
  have hdb2 : (syncCache (syncCache db0 disk).1 disk).1 = (syncCache db0 disk).1 := by
    show (syncPhase2 disk (syncPhase1 (syncCache db0 disk).1 disk)
        ((syncCache db0 disk).1.files.map (fun r => (r.path, r.mtime)))).1
      = (syncCache db0 disk).1
    rw [hnoop, hph1]
  have hdel : (syncCache (syncCache db0 disk).1 disk).2.deleted = 0 := by
    show (syncPhase2 disk (syncPhase1 (syncCache db0 disk).1 disk)
        ((syncCache db0 disk).1.files.map (fun r => (r.path, r.mtime)))).2.deleted = 0
    rw [hnoop]
    exact (phase1_stats (syncCache db0 disk).1 disk
      ((syncCache db0 disk).1, ⟨0, 0, 0, 0, 0⟩)).2.2
  refine ⟨hadded, hmod, hdel, hdb2, ?_, ?_, ?_, ?_, ?_, ?_, ?_, ?_⟩
  · intro opts; rw [hdb2]
  · intro q opts; rw [hdb2]
  · rw [hdb2]
  · intro tag opts; rw [hdb2]
  · intro p; rw [hdb2]
  · intro p; rw [hdb2]
  · intro p; rw [hdb2]
  · intro p; rw [hdb2]

/-- Witness for the amended C1 at the concrete two-note vault. -/
theorem c1_idempotent_sync_witness :
    ((∀ f ∈ disk9, f.raw.isSome = true) ∧ (disk9.map DiskFile.path).Nodup) ∧
    (syncCache (syncCache emptyDb disk9).1 disk9).2.added = 0 :=
  ⟨⟨by decide, by decide⟩,
    (c1_idempotent_sync emptyDb disk9 (by decide) (by decide)).1⟩


/-- C1 counterexample: with an unreadable file x.md on disk and no disk change,
the SECOND sync still reports added = 1, not 0, because sync.ts increments
stats.added unconditionally after processFile returns early on read failure
and the file was never inserted by the first sync. -/
theorem c1_counterexample :
    (syncCache (syncCache emptyDb [⟨"x.md", 1, 1, none⟩]).1
        [⟨"x.md", 1, 1, none⟩]).2.added = 1 ∧
    (syncCache (syncCache emptyDb [⟨"x.md", 1, 1, none⟩]).1
        [⟨"x.md", 1, 1, none⟩]).2.modified = 0 ∧
    (syncCache (syncCache emptyDb [⟨"x.md", 1, 1, none⟩]).1
        [⟨"x.md", 1, 1, none⟩]).2.deleted = 0 :=
  ⟨rfl, rfl, rfl⟩

/-- C2 counterexample: an unreadable new file is NOT inserted into the files
table, yet the returned stats count it as added = 1 — contradicting the
claim that it is "neither counted as added/modified nor inserted". -/
theorem c2_counterexample :
    (syncCache emptyDb [⟨"x.md", 1, 1, none⟩]).2.added = 1 ∧
    (syncCache emptyDb [⟨"x.md", 1, 1, none⟩]).1.files = [] ∧
    (syncCache emptyDb [⟨"x.md", 1, 1, none⟩]).1.fts = [] :=
  ⟨rfl, rfl, rfl⟩

theorem nodup_path_eq (disk : List DiskFile)
    (HD : (disk.map DiskFile.path).Nodup) (f g : DiskFile)
    (hf : f ∈ disk) (hg : g ∈ disk) (hp : g.path = f.path) : g = f :=
  List.inj_on_of_nodup_map HD hg hf hp

/-- Links inserts leave the tags table unchanged. -/
theorem insertLinkRow_tags (db : Db) (l : LinkRow) : (insertLinkRow db l).tags = db.tags := by
  unfold insertLinkRow
  split <;> rfl

/-- Tag inserts leave the links table unchanged. -/
theorem insertTagRow_links (db : Db) (t : TagRow) : (insertTagRow db t).links = db.links := by
  unfold insertTagRow
  split <;> rfl

theorem insertTagRow_tags_filter (db : Db) (t : TagRow) (p : String) (h : t.path ≠ p) :
    (insertTagRow db t).tags.filter (fun r => r.path == p)
      = db.tags.filter (fun r => r.path == p) := by
  unfold insertTagRow
  split
  · rfl
  · show (db.tags ++ [t]).filter (fun r => r.path == p)
      = db.tags.filter (fun r => r.path == p)
    rw [List.filter_append]
    rw [show List.filter (fun r => r.path == p) [t] = [] from by
      rw [List.filter_cons_of_neg (by simp [h])]
      rfl]
    rw [List.append_nil]

theorem insertLinkRow_links_filter (db : Db) (l : LinkRow) (p : String)
    (h : l.source ≠ p) :
    (insertLinkRow db l).links.filter (fun r => r.source == p)
      = db.links.filter (fun r => r.source == p) := by
  unfold insertLinkRow
  split
  · rfl
  · show (db.links ++ [l]).filter (fun r => r.source == p)
      = db.links.filter (fun r => r.source == p)
    rw [List.filter_append]
    rw [show List.filter (fun r => r.source == p) [l] = [] from by
      rw [List.filter_cons_of_neg (by simp [h])]
      rfl]
    rw [List.append_nil]

/-- The tag-insert loop of processFile only adds rows at path0, so the tag
rows of any other path are preserved. -/
theorem foldl_insertTag_filter (path0 p : String) (h : path0 ≠ p) :
    ∀ (ts : List String) (db : Db),
      ((ts.foldl (fun db2 tag => insertTagRow db2 ⟨tag, path0⟩) db)).tags.filter
          (fun r => r.path == p)
        = db.tags.filter (fun r => r.path == p) := by
  intro ts
  induction ts with
  | nil => intro db; rfl
  | cons t rest ih =>
    intro db
    rw [List.foldl_cons, ih]
    exact insertTagRow_tags_filter db ⟨t, path0⟩ p h

/-- The link-insert loop of processFile only adds rows with source path0, so
the link rows of any other source are preserved. -/
theorem foldl_insertLink_filter (path0 p : String) (h : path0 ≠ p) :
    ∀ (ls : List ExtractedLink) (db : Db),
      ((ls.foldl (fun db2 l => insertLinkRow db2 ⟨path0, l.target, l.type⟩) db)).links.filter
          (fun r => r.source == p)
        = db.links.filter (fun r => r.source == p) := by
  intro ls
  induction ls with
  | nil => intro db; rfl
  | cons l rest ih =>
    intro db
    rw [List.foldl_cons, ih]
    exact insertLinkRow_links_filter db ⟨path0, l.target, l.type⟩ p h

theorem processFile_tags_other (db : Db) (f : DiskFile) (p : String) (hne : f.path ≠ p) :
    (processFile db f).tags.filter (fun r => r.path == p)
      = db.tags.filter (fun r => r.path == p) := by
  cases hr : f.raw with
  | none => rw [processFile_none db f hr]
  | some parsed =>
    unfold processFile
    rw [hr]
    dsimp only
    rw [show ∀ db2 : Db, (insertFtsRow db2 ⟨f.path, titleOf f parsed, parsed.content⟩).tags
        = db2.tags from fun db2 => rfl]
    rw [show ∀ db2 : Db, (deleteFtsFor db2 f.path).tags = db2.tags from fun db2 => rfl]
    rw [foldl_proj_const _ Db.tags (fun b a => insertLinkRow_tags b _)]
    rw [show ∀ db2 : Db, (deleteLinksFor db2 f.path).tags = db2.tags from fun db2 => rfl]
    rw [foldl_insertTag_filter f.path p hne]
    rw [show (deleteTagsFor (insertFileRow db (fileRowOf f parsed)) f.path).tags
        = db.tags.filter (fun r => r.path != f.path) from rfl]
    rw [List.filter_filter]
    apply List.filter_congr
    intro r hr2
    by_cases hp : r.path = p
    · have hpf : p ≠ f.path := Ne.symm hne
      simp [hp, hpf]
    · simp [hp]

theorem processFile_links_other (db : Db) (f : DiskFile) (p : String) (hne : f.path ≠ p) :
    (processFile db f).links.filter (fun r => r.source == p)
      = db.links.filter (fun r => r.source == p) := by
  cases hr : f.raw with
  | none => rw [processFile_none db f hr]
  | some parsed =>
    unfold processFile
    rw [hr]
    dsimp only
    rw [show ∀ db2 : Db, (insertFtsRow db2 ⟨f.path, titleOf f parsed, parsed.content⟩).links
        = db2.links from fun db2 => rfl]
    rw [show ∀ db2 : Db, (deleteFtsFor db2 f.path).links = db2.links from fun db2 => rfl]
    rw [foldl_insertLink_filter f.path p hne]
    rw [show ∀ db2 : Db, (deleteLinksFor db2 f.path).links
        = db2.links.filter (fun l => l.source != f.path) from fun db2 => rfl]
    rw [foldl_proj_const _ Db.links (fun b a => insertTagRow_links b _)]
    rw [show (deleteTagsFor (insertFileRow db (fileRowOf f parsed)) f.path).links
        = db.links from rfl]
    rw [List.filter_filter]
    apply List.filter_congr
    intro r hr2
    by_cases hp : r.source = p
    · have hpf : p ≠ f.path := Ne.symm hne
      simp [hp, hpf]
    · simp [hp]

theorem phase1_tags_untouched (db0 : Db) :
    ∀ (disk : List DiskFile) (acc : Db × SyncStats) (p : String),
      (∀ f ∈ disk, f.path = p → f.raw = none) →
      ((disk.foldl (syncStep db0) acc).1).tags.filter (fun r => r.path == p)
        = acc.1.tags.filter (fun r => r.path == p) := by
  intro disk
  induction disk with
  | nil => intro acc p _; rfl
  | cons g rest ih =>
    intro acc p h
    rw [List.foldl_cons]
    rw [ih _ p (fun f hf => h f (List.mem_cons_of_mem g hf))]
    by_cases hgp : g.path = p
    · rw [show (syncStep db0 acc g).1 = acc.1 from
        syncStep_db_unreadable db0 acc g (h g (List.mem_cons_self g rest) hgp)]
    · unfold syncStep
      cases hc : cachedMtime db0.files g.path with
      | none =>
        dsimp only
        exact processFile_tags_other acc.1 g p hgp
      | some m =>
        dsimp only
        by_cases hm : m ≠ g.mtime
        · rw [if_pos hm]
          exact processFile_tags_other acc.1 g p hgp
        · rw [if_neg hm]

theorem phase1_links_untouched (db0 : Db) :
    ∀ (disk : List DiskFile) (acc : Db × SyncStats) (p : String),
      (∀ f ∈ disk, f.path = p → f.raw = none) →
      ((disk.foldl (syncStep db0) acc).1).links.filter (fun r => r.source == p)
        = acc.1.links.filter (fun r => r.source == p) := by
  intro disk
  induction disk with
  | nil => intro acc p _; rfl
  | cons g rest ih =>
    intro acc p h
    rw [List.foldl_cons]
    rw [ih _ p (fun f hf => h f (List.mem_cons_of_mem g hf))]
    by_cases hgp : g.path = p
    · rw [show (syncStep db0 acc g).1 = acc.1 from
        syncStep_db_unreadable db0 acc g (h g (List.mem_cons_self g rest) hgp)]
    · unfold syncStep
      cases hc : cachedMtime db0.files g.path with
      | none =>
        dsimp only
        exact processFile_links_other acc.1 g p hgp
      | some m =>
        dsimp only
        by_cases hm : m ≠ g.mtime
        · rw [if_pos hm]
          exact processFile_links_other acc.1 g p hgp
        · rw [if_neg hm]

theorem syncStep2_tags (disk : List DiskFile) (acc : Db × SyncStats)
    (c : String × Int) (p : String) (hne : c.1 ≠ p) :
    (syncStep2 disk acc c).1.tags.filter (fun r => r.path == p)
      = acc.1.tags.filter (fun r => r.path == p) := by
  unfold syncStep2
  split
  · rfl
  · dsimp only
    rw [show (deleteFileRow (deleteFtsFor (deleteLinksFor (deleteTagsFor acc.1 c.1) c.1) c.1) c.1).tags
        = acc.1.tags.filter (fun t => t.path != c.1) from rfl]
    rw [List.filter_filter]
    apply List.filter_congr
    intro r hr
    by_cases hp : r.path = p
    · have hpc : p ≠ c.1 := Ne.symm hne
      simp [hp, hpc]
    · simp [hp]

theorem syncStep2_links (disk : List DiskFile) (acc : Db × SyncStats)
    (c : String × Int) (p : String) (hne : c.1 ≠ p) :
    (syncStep2 disk acc c).1.links.filter (fun r => r.source == p)
      = acc.1.links.filter (fun r => r.source == p) := by
  unfold syncStep2
  split
  · rfl
  · dsimp only
    rw [show (deleteFileRow (deleteFtsFor (deleteLinksFor (deleteTagsFor acc.1 c.1) c.1) c.1) c.1).links
        = acc.1.links.filter (fun l => l.source != c.1) from rfl]
    rw [List.filter_filter]
    apply List.filter_congr
    intro r hr
    by_cases hp : r.source = p
    · have hpc : p ≠ c.1 := Ne.symm hne
      simp [hp, hpc]
    · simp [hp]

theorem phase2_tags_preserve (disk : List DiskFile) :
    ∀ (cached : List (String × Int)) (acc : Db × SyncStats) (p : String),
      disk.any (fun f => f.path = p) = true →
      (syncPhase2 disk acc cached).1.tags.filter (fun r => r.path == p)
        = acc.1.tags.filter (fun r => r.path == p) := by
  intro cached
  induction cached with
  | nil => intro acc p _; rfl
  | cons c rest ih =>
    intro acc p hp
    unfold syncPhase2
    rw [List.foldl_cons]
    rw [show (rest.foldl (syncStep2 disk) (syncStep2 disk acc c))
        = syncPhase2 disk (syncStep2 disk acc c) rest from rfl]
    rw [ih _ p hp]
    by_cases hany : disk.any (fun f => f.path = c.1) = true
    · rw [syncStep2_pos disk acc c hany]
    · rw [Bool.not_eq_true] at hany
      have hne : c.1 ≠ p := by
        intro he
        rw [he] at hany
        rw [hany] at hp
        cases hp
      exact syncStep2_tags disk acc c p hne

theorem phase2_links_preserve (disk : List DiskFile) :
    ∀ (cached : List (String × Int)) (acc : Db × SyncStats) (p : String),
      disk.any (fun f => f.path = p) = true →
      (syncPhase2 disk acc cached).1.links.filter (fun r => r.source == p)
        = acc.1.links.filter (fun r => r.source == p) := by
  intro cached
  induction cached with
  | nil => intro acc p _; rfl
  | cons c rest ih =>
    intro acc p hp
    unfold syncPhase2
    rw [List.foldl_cons]
    rw [show (rest.foldl (syncStep2 disk) (syncStep2 disk acc c))
        = syncPhase2 disk (syncStep2 disk acc c) rest from rfl]
    rw [ih _ p hp]
    by_cases hany : disk.any (fun f => f.path = c.1) = true
    · rw [syncStep2_pos disk acc c hany]
    · rw [Bool.not_eq_true] at hany
      have hne : c.1 ≠ p := by
        intro he
        rw [he] at hany
        rw [hany] at hp
        cases hp
      exact syncStep2_links disk acc c p hne

/-- Claim C2 as amended: the two failure modes of step 5 differ. A file whose
read throws is skipped by processFile: none of the four tables (files, tags,
links, search) changes at its path, the rest of the sync completes normally
(every readable file is indexed with its fresh mtime), and — still absent
from the cache — the file is retried (and counted as added again) on the
next run. A file whose frontmatter fails to parse is NOT skipped:
parseFrontmatter swallows the YAML error and yields empty data, so the file
is modelled as readable with empty frontmatter, is inserted like any other
file with its fresh mtime, and the next run classifies it unchanged rather
than retrying it (concretely: a frontmatter-less note lands in all tables
and a second sync reports 0/0/0 with unchanged=1). In both cases the
returned statistics count the file: sync.ts increments stats.added /
stats.modified unconditionally after the processFile call, so added and
modified equal the number of scanned files absent from (resp. stale in)
the cache, readable or not. -/
theorem c2_failure_semantics (db : Db) (disk : List DiskFile) (f : DiskFile)
    (hf : f ∈ disk) (hraw : f.raw = none)
    (HD : (disk.map DiskFile.path).Nodup) :
    (syncCache db disk).2.added
      = (disk.filter (fun g => (cachedMtime db.files g.path).isNone)).length ∧
    (syncCache db disk).2.modified
      = (disk.filter (fun g => match cachedMtime db.files g.path with
          | some m => decide (m ≠ g.mtime)
          | none => false)).length ∧
    cachedMtime (syncCache db disk).1.files f.path = cachedMtime db.files f.path ∧
    (syncCache db disk).1.tags.filter (fun r => r.path == f.path)
      = db.tags.filter (fun r => r.path == f.path) ∧
    (syncCache db disk).1.links.filter (fun r => r.source == f.path)
      = db.links.filter (fun r => r.source == f.path) ∧
    (syncCache db disk).1.fts.filter (fun r => r.path == f.path)
      = db.fts.filter (fun r => r.path == f.path) ∧
    (∀ g ∈ disk, g.raw.isSome = true →
      cachedMtime (syncCache db disk).1.files g.path = some g.mtime) ∧
    (∀ g ∈ disk, g.raw.isSome = true →
      (cachedMtime (syncCache db disk).1.files g.path).isNone = false ∧
      (match cachedMtime (syncCache db disk).1.files g.path with
        | some m => decide (m ≠ g.mtime)
        | none => false) = false) ∧
    (cachedMtime db.files f.path = none →
      cachedMtime (syncCache db disk).1.files f.path = none ∧
      1 ≤ (syncCache (syncCache db disk).1 disk).2.added) ∧
    ((syncCache emptyDb [⟨"p.md", 7, 4, some ⟨{}, "body #t"⟩⟩]).1
      = ⟨[⟨"p.md", 7, 4, "p", none, none, {}⟩], [⟨"t", "p.md"⟩], [],
          [⟨"p.md", "p", "body #t"⟩]⟩ ∧
      (syncCache (syncCache emptyDb [⟨"p.md", 7, 4, some ⟨{}, "body #t"⟩⟩]).1
          [⟨"p.md", 7, 4, some ⟨{}, "body #t"⟩⟩]).2 = ⟨0, 0, 0, 1, 0⟩) := by
  have huntouched : ∀ g ∈ disk, g.path = f.path → g.raw = none := by
    intro g hg hp
    have hgf : g = f := nodup_path_eq disk HD f g hf hg hp
    rw [hgf, hraw]
  have hany : disk.any (fun g => g.path = f.path) = true :=
    List.any_eq_true.2 ⟨f, hf, by simp⟩
  have h2a : cachedMtime (syncCache db disk).1.files f.path
      = cachedMtime db.files f.path := by
    show cachedMtime (syncPhase2 disk (syncPhase1 db disk)
        (db.files.map (fun r => (r.path, r.mtime)))).1.files f.path = _
    rw [phase2_cm_preserve disk _ _ f.path hany]
    exact phase1_cm_untouched db disk (db, ⟨0, 0, 0, 0, 0⟩) f.path huntouched
  refine ⟨sync_added_count db disk, sync_modified_count db disk, h2a,
    ?_, ?_, ?_, ?_, ?_, ?_, by decide, by decide⟩
  · show (syncPhase2 disk (syncPhase1 db disk)
        (db.files.map (fun r => (r.path, r.mtime)))).1.tags.filter
          (fun r => r.path == f.path) = _
    rw [phase2_tags_preserve disk _ _ f.path hany]
    rw [show syncPhase1 db disk
        = disk.foldl (syncStep db) (db, ⟨0, 0, 0, 0, 0⟩) from rfl]
    rw [phase1_tags_untouched db disk (db, ⟨0, 0, 0, 0, 0⟩) f.path huntouched]
  · show (syncPhase2 disk (syncPhase1 db disk)
        (db.files.map (fun r => (r.path, r.mtime)))).1.links.filter
          (fun r => r.source == f.path) = _
    rw [phase2_links_preserve disk _ _ f.path hany]
    rw [show syncPhase1 db disk
        = disk.foldl (syncStep db) (db, ⟨0, 0, 0, 0, 0⟩) from rfl]
    rw [phase1_links_untouched db disk (db, ⟨0, 0, 0, 0, 0⟩) f.path huntouched]
  · show (syncPhase2 disk (syncPhase1 db disk)
        (db.files.map (fun r => (r.path, r.mtime)))).1.fts.filter
          (fun r => r.path == f.path) = _
    rw [phase2_fts_preserve disk _ _ f.path hany]
    rw [show syncPhase1 db disk
        = disk.foldl (syncStep db) (db, ⟨0, 0, 0, 0, 0⟩) from rfl]
    rw [phase1_fts_untouched db disk (db, ⟨0, 0, 0, 0, 0⟩) f.path huntouched]
  · intro g hg hsome
    exact sync_cm_readable db disk g hg HD hsome
  · intro g hg hsome
    have hcm := sync_cm_readable db disk g hg HD hsome
    constructor
    · rw [hcm]
      rfl
    · rw [hcm]
      simp
  · intro hnone
    refine ⟨by rw [h2a]; exact hnone, ?_⟩
    rw [sync_added_count]
    have hmem : f ∈ disk.filter
        (fun g => (cachedMtime (syncCache db disk).1.files g.path).isNone) :=
      List.mem_filter.2 ⟨hf, by rw [h2a, hnone]; rfl⟩
    exact List.length_pos_of_mem hmem

/-- Witness for the amended C2: x.md is unreadable, y.md is readable; both
are counted as added, and the unreadable file's absence persists. -/
theorem c2_failure_semantics_witness :
    ((⟨"x.md", 1, 1, none⟩ : DiskFile) ∈
        ([⟨"x.md", 1, 1, none⟩, ⟨"y.md", 2, 3, some ⟨{}, "hi"⟩⟩] : List DiskFile) ∧
      (⟨"x.md", 1, 1, none⟩ : DiskFile).raw = none ∧
      (([⟨"x.md", 1, 1, none⟩, ⟨"y.md", 2, 3, some ⟨{}, "hi"⟩⟩] : List DiskFile).map
          DiskFile.path).Nodup) ∧
    (syncCache emptyDb
        [⟨"x.md", 1, 1, none⟩, ⟨"y.md", 2, 3, some ⟨{}, "hi"⟩⟩]).2.added
      = (([⟨"x.md", 1, 1, none⟩, ⟨"y.md", 2, 3, some ⟨{}, "hi"⟩⟩] : List DiskFile).filter
          (fun g => (cachedMtime emptyDb.files g.path).isNone)).length :=
  ⟨⟨by decide, rfl, by decide⟩,
    (c2_failure_semantics emptyDb
      [⟨"x.md", 1, 1, none⟩, ⟨"y.md", 2, 3, some ⟨{}, "hi"⟩⟩]
      ⟨"x.md", 1, 1, none⟩ (by decide) rfl (by decide)).1⟩

end Petra
